import Mathlib

/-!
Verification of `merge_plugins.py` (dwa_usd_plugins).

A shallow embedding of the plugin tree merger from `merge_plugins.py`.
The filesystem is modelled as a finite tree of entries; a relative path is a
list of path components.  Stateful code is modelled by explicit state passing:
each merge operation consumes the destination tree and returns either the new
tree together with the list of report lines it printed, or a fatal error
together with the tree as it stood when the error was raised (an uncaught
Python exception kills the process but leaves the filesystem as it is).

File contents are modelled as lists of bytes (`List Nat`).  The external
three-way merge helper (`subprocess.call("merge ...", shell=True)`) is
modelled by a parameter function from the three file contents it is handed
(ours, base, theirs) to an exit code and the new content of the file it
mutates in place; the exact command line passed to the shell is recorded as
an event.
-/

/-- A filesystem entry: a regular file with its content, a directory with a
list of named children (in directory-listing order), or anything that is
neither a regular file nor a directory (device file, dangling symlink, ...),
for which `os.path.isfile` and `os.path.isdir` are both false. -/
inductive Entry where
  | file (content : List Nat)
  | dir (children : List (String × Entry))
  | other

deriving Repr

/-- First entry with the given name in a child list (filesystem child names
are unique in any tree that comes from a real directory). -/
def findChild (cs : List (String × Entry)) (n : String) : Option Entry :=
  match cs with
  | [] => none
  | (m, e) :: rest => if m = n then some e else findChild rest n

/-- Replace the first child with the given name, or append a new child. -/
def setChild (cs : List (String × Entry)) (n : String) (e : Entry) :
    List (String × Entry) :=
  match cs with
  | [] => [(n, e)]
  | (m, c) :: rest => if m = n then (m, e) :: rest else (m, c) :: setChild rest n e

/-- Resolve a relative path inside a tree.  `none` models a path for which
`os.path.exists` is false. -/
def Entry.lookup (e : Entry) : List String → Option Entry
  | [] => some e
  | n :: rest =>
    match e with
    | .dir cs =>
      match findChild cs n with
      | some c => c.lookup rest
      | none => none
    | _ => none

/-- `under p q` holds when the path `q` lies in the subtree rooted at `p`
(`p` is a, not necessarily proper, prefix of `q`). -/
def under (p q : List String) : Prop := ∃ s, q = p ++ s

instance (p q : List String) : Decidable (under p q) :=
  decidable_of_iff (p.isPrefixOf q = true) (by
    constructor
    · intro h
      rcases List.isPrefixOf_iff_prefix.mp h with ⟨s, hs⟩
      exact ⟨s, hs.symm⟩
    · intro h
      rcases h with ⟨s, hs⟩
      exact List.isPrefixOf_iff_prefix.mpr ⟨s, hs.symm⟩)

mutual

/-- Does the tree contain an entry that is neither a file nor a directory?
`shutil.copytree` cannot copy such an entry. -/
def Entry.hasOther : Entry → Bool
  | .file _ => false
  | .other => true
  | .dir cs => childrenHaveOther cs

def childrenHaveOther : List (String × Entry) → Bool
  | [] => false
  | (_, c) :: rest => c.hasOther || childrenHaveOther rest
end

/-- `findChild` never finds a second child hidden behind a duplicate name. -/
def nodupKeys : List (String × Entry) → Bool
  | [] => true
  | (n, _) :: rest => (findChild rest n).isNone && nodupKeys rest

mutual

/-- Every directory of the tree has pairwise distinct child names, as is the
case for any tree read off a real filesystem. -/
def Entry.wfNames : Entry → Bool
  | .file _ => true
  | .other => true
  | .dir cs => nodupKeys cs && wfChildren cs

def wfChildren : List (String × Entry) → Bool
  | [] => true
  | (_, c) :: rest => c.wfNames && wfChildren rest
end

/-- A fatal error: an uncaught Python exception. `runtimeError` carries the
message of a `RuntimeError` raised by the tool itself; `osError` stands for an
`OSError` escaping from `os.makedirs`/`shutil.copyfile`; `copytreeError` for a
`shutil.Error` escaping from `shutil.copytree`; `keyError` for the lookup of
an unknown plugin name. -/
inductive Err where
  | runtimeError (msg : String)
  | osError (path : List String)
  | copytreeError
  | keyError (name : String)

deriving Repr, DecidableEq

/-- One line of progress output, or the spawn of the merge subprocess.
`shellCall cmd` records that `subprocess.call(cmd, shell=True)` ran. -/
inductive Event where
  | copying (path : List String)
  | merging (path : List String)
  | failedMerge (path : List String)
  | shellCall (cmd : String)

deriving Repr, DecidableEq

/-- The ambient configuration of a run: the source tree rooted at `THIS_DIR`
(with its textual path, used in messages and in the helper command line), the
textual destination path `USD_DIR`, the result of the start-up probe
`HAS_MERGE`, and the behaviour of the external merge helper. -/
structure Config where
  thisDirStr : String
  usdDirStr : String
  thisDir : Entry
  hasMerge : Bool
  helper : List Nat → List Nat → List Nat → Nat × List Nat

/-- `os.path.join` of a root path and the components of a relative path. -/
def joinPath (root : String) (p : List String) : String :=
  p.foldl (fun acc c => acc ++ "/" ++ c) root

/-- `os.makedirs`: create every missing directory along the path.  Raises
(without having created anything) when an existing component of the path is
not a directory. -/
def makeDirs (d : Entry) (p : List String) : Except Err Entry :=
  match p with
  | [] => .ok d
  | n :: rest =>
    match d with
    | .dir cs =>
      match findChild cs n with
      | some (.dir cs') =>
        match makeDirs (.dir cs') rest with
        | .ok c' => .ok (.dir (setChild cs n c'))
        | .error e => .error e
      | some _ => .error (.osError p)
      | none =>
        match makeDirs (.dir []) rest with
        | .ok c' => .ok (.dir (setChild cs n c'))
        | .error e => .error e
    | _ => .error (.osError p)

/-- `make_parent_dirs` from the source: create all parent directories of a
path when its `os.path.dirname` does not yet exist. -/
def make_parent_dirs (d : Entry) (p : List String) : Except Err Entry :=
  let out_dir := p.dropLast
  if (d.lookup out_dir).isSome then .ok d else makeDirs d out_dir

/-- `shutil.copyfile src dst`: write the source bytes over the destination
path.  Raises when the destination is a directory, when a parent is missing,
or when a component on the way is not a directory; the degenerate empty
relative path (writing over the destination root itself) also raises. -/
def copyfile (d : Entry) (p : List String) (content : List Nat) : Except Err Entry :=
  match p with
  | [] => .error (.osError [])
  | [n] =>
    match d with
    | .dir cs =>
      match findChild cs n with
      | some (.dir _) => .error (.osError p)
      | _ => .ok (.dir (setChild cs n (.file content)))
    | _ => .error (.osError p)
  | n :: rest =>
    match d with
    | .dir cs =>
      match findChild cs n with
      | some c =>
        match copyfile c rest content with
        | .ok c' => .ok (.dir (setChild cs n c'))
        | .error e => .error e
      | none => .error (.osError p)
    | _ => .error (.osError p)

/-- Replace the entry at a reachable path in place; identity when the path
does not resolve. -/
def Entry.setAt (d : Entry) : List String → Entry → Entry
  | [], e => e
  | n :: rest, e =>
    match d with
    | .dir cs =>
      match findChild cs n with
      | some c => .dir (setChild cs n (c.setAt rest e))
      | none => d
    | _ => d

/-- `shutil.copytree src dst` for a not-yet-existing destination path: make
the destination directory (and any missing parents) and copy the whole source
subtree below it.  Fails when the subtree holds an entry that is neither file
nor directory (modelled as failing without effect). -/
def copytree (d : Entry) (p : List String) (src : Entry) : Except Err Entry :=
  if src.hasOther then .error .copytreeError
  else
    match makeDirs d p with
    | .ok d1 => .ok (d1.setAt p src)
    | .error e => .error e

/-- The literal command line `"merge {out_file} {out_file} {in_file}"` built
by `merge_file`. -/
def mergeCmd (cfg : Config) (p : List String) : String :=
  "merge " ++ joinPath cfg.usdDirStr p ++ " " ++ joinPath cfg.usdDirStr p ++
    " " ++ joinPath cfg.thisDirStr p

/-- `merge_file` from the source: copy the source file over the destination
when the destination file does not exist or no merge helper is installed;
otherwise run `merge out out in` through the shell and let it rewrite the
destination file, reporting (but not propagating) a nonzero exit status. -/
def merge_file (cfg : Config) (srcContent : List Nat) (p : List String)
    (d : Entry) : Except (Err × Entry) (Entry × List Event) :=
  if (d.lookup p).isNone || !cfg.hasMerge then
    match make_parent_dirs d p with
    | .error e => .error (e, d)
    | .ok d1 =>
      match copyfile d1 p srcContent with
      | .error e => .error (e, d1)
      | .ok d2 => .ok (d2, [.copying p])
  else
    match d.lookup p with
    | some (.file old) =>
      let r := cfg.helper old old srcContent
      .ok (d.setAt p (.file r.2),
        [.merging p, .shellCall (mergeCmd cfg p)] ++
          if r.1 == 0 then [] else [.failedMerge p])
    | _ => .ok (d, [.merging p, .shellCall (mergeCmd cfg p), .failedMerge p])

mutual

/-- Merge one source entry, located at the given relative path, into the
destination.  For a directory this is `merge_dir` from the source: wholesale
copy when the destination path does not exist yet, otherwise a walk over the
immediate children; a child that is neither file nor directory raises
`RuntimeError` (the source message names the child, that is, the last
component of the path). -/
def merge_node (cfg : Config) (c : Entry) (p : List String) (d : Entry) :
    Except (Err × Entry) (Entry × List Event) :=
  match c with
  | .file cont => merge_file cfg cont p d
  | .other =>
    .error (.runtimeError ("Dont know what to do with " ++ p.getLastD ""), d)
  | .dir cs =>
    if (d.lookup p).isSome then merge_nodes cfg cs p d
    else
      match make_parent_dirs d p with
      | .error e => .error (e, d)
      | .ok d1 =>
        match copytree d1 p (.dir cs) with
        | .error e => .error (e, d1)
        | .ok d2 => .ok (d2, [.copying p])

/-- The loop body of `merge_dir`: process the listed children in order,
stopping at the first fatal error. -/
def merge_nodes (cfg : Config) (cs : List (String × Entry)) (p : List String)
    (d : Entry) : Except (Err × Entry) (Entry × List Event) :=
  match cs with
  | [] => .ok (d, [])
  | (n, c) :: rest =>
    match merge_node cfg c (p ++ [n]) d with
    | .error e => .error e
    | .ok (d1, ev1) =>
      match merge_nodes cfg rest p d1 with
      | .error e => .error e
      | .ok (d2, ev2) => .ok (d2, ev1 ++ ev2)
end

/-- A copy of a plugin declaration from `AVAILABLE_PLUGINS`. -/
structure PluginInfo where
  about : String
  files : List (List String)

/-- The static plugin table of the tool. -/
def AVAILABLE_PLUGINS : List (String × PluginInfo) :=
  [("nuke",
    { about := "Plugins for Nuke10+"
      files := [["third_party", "nuke"], ["cmake"], ["CMakeLists.txt"],
                ["build_scripts"]] }),
   ("houdini_hydra",
    { about := "Hydra extension for Pixars Houdini plugin"
      files := [["third_party", "houdini"]] })]

/-- Plugin table lookup. -/
def findPlugin : List (String × PluginInfo) → String → Option PluginInfo
  | [], _ => none
  | (m, i) :: rest, n => if m = n then some i else findPlugin rest n

/-- The loop body of `merge_plugin`: for each declared relative path, fail
with `RuntimeError` naming the path when it does not exist under the source
root, otherwise dispatch on its kind (`merge_dir` for a directory,
`merge_file` for a file, `RuntimeError` otherwise). -/
def merge_plugin_files (cfg : Config) (files : List (List String)) (d : Entry) :
    Except (Err × Entry) (Entry × List Event) :=
  match files with
  | [] => .ok (d, [])
  | f :: rest =>
    match cfg.thisDir.lookup f with
    | none =>
      .error (.runtimeError ("dwa_usd_plugins file " ++ joinPath cfg.thisDirStr f
        ++ " does not exist"), d)
    | some (.dir cs) =>
      match merge_node cfg (.dir cs) f d with
      | .error e => .error e
      | .ok (d1, ev1) =>
        match merge_plugin_files cfg rest d1 with
        | .error e => .error e
        | .ok (d2, ev2) => .ok (d2, ev1 ++ ev2)
    | some (.file cont) =>
      match merge_node cfg (.file cont) f d with
      | .error e => .error e
      | .ok (d1, ev1) =>
        match merge_plugin_files cfg rest d1 with
        | .error e => .error e
        | .ok (d2, ev2) => .ok (d2, ev1 ++ ev2)
    | some .other =>
      .error (.runtimeError ("Unknown file situation " ++
        joinPath cfg.thisDirStr f), d)

/-- `merge_plugin` from the source: look the plugin up in the static table
and merge its declared paths in declaration order. -/
def merge_plugin (cfg : Config) (name : String) (d : Entry) :
    Except (Err × Entry) (Entry × List Event) :=
  match findPlugin AVAILABLE_PLUGINS name with
  | some info => merge_plugin_files cfg info.files d
  | none => .error (.keyError name, d)

/-- `validate_usd_dir` from the source, as a pure check over the surrounding
filesystem `world` in which the user-supplied destination path is resolved:
the path must exist and be a directory, and the marker `pxr/pxr.h.in` must
exist below it.  The messages name the destination path as typed by the
user. -/
def validate_usd_dir (world : Entry) (usdStr : String) (usdPath : List String) :
    Except Err Unit :=
  match world.lookup usdPath with
  | some (.dir _) =>
    if (world.lookup (usdPath ++ ["pxr", "pxr.h.in"])).isSome then .ok ()
    else .error (.runtimeError (usdStr ++ " is not a valid USD repo"))
  | _ => .error (.runtimeError (usdStr ++ " is not a valid directory"))

/-- `run` from the source, for a parsed command line: validate the
destination (aborting before touching anything when validation fails), then
merge each requested plugin, in table order, into the destination subtree of
the world. -/
def run (cfg : Config) (world : Entry) (usdPath : List String)
    (nuke houdini_hydra : Bool) : Except (Err × Entry) (Entry × List Event) :=
  match validate_usd_dir world cfg.usdDirStr usdPath with
  | .error e => .error (e, world)
  | .ok _ =>
    let d0 := (world.lookup usdPath).getD .other
    match (if nuke then merge_plugin cfg "nuke" d0 else .ok (d0, [])) with
    | .error (e, dE) => .error (e, world.setAt usdPath dE)
    | .ok (d1, ev1) =>
      match (if houdini_hydra then merge_plugin cfg "houdini_hydra" d1
             else .ok (d1, [])) with
      | .error (e, dE) => .error (e, world.setAt usdPath dE)
      | .ok (d2, ev2) => .ok (world.setAt usdPath d2, ev1 ++ ev2)

/-! ## Path prefix facts -/

/-! ## Properties of the operations, stated as predicates, and concrete fixtures -/

/-- Frame property of one merge step: paths that neither lie in the merged
subtree nor on the way to it are untouched. -/
def FrameN (cfg : Config) (c : Entry) (p : List String) (d : Entry) : Prop :=
  ∀ d' ev, merge_node cfg c p d = .ok (d', ev) →
    ∀ r, ¬ under p r → ¬ under r p → d'.lookup r = d.lookup r

/-- Frame property of the child walk: paths that neither lie in any listed
child subtree nor on the way to one are untouched. -/
def FrameL (cfg : Config) (cs : List (String × Entry)) (p : List String)
    (d : Entry) : Prop :=
  ∀ d' ev, merge_nodes cfg cs p d = .ok (d', ev) →
    ∀ r, (∀ nc : String × Entry, nc ∈ cs →
        ¬ under (p ++ [nc.1]) r ∧ ¬ under r (p ++ [nc.1])) →
      d'.lookup r = d.lookup r

/-- File preservation by one merge step: a destination file at a path with no
counterpart in the merged source subtree keeps its bytes. -/
def KeepN (cfg : Config) (c : Entry) (p : List String) (d : Entry) : Prop :=
  ∀ d' ev, merge_node cfg c p d = .ok (d', ev) →
    c.wfNames = true →
    ∀ q c0, d.lookup q = some (.file c0) →
      (∀ s, q = p ++ s → c.lookup s = none) →
      d'.lookup q = some (.file c0)

/-- File preservation by the child walk. -/
def KeepL (cfg : Config) (cs : List (String × Entry)) (p : List String)
    (d : Entry) : Prop :=
  ∀ d' ev, merge_nodes cfg cs p d = .ok (d', ev) →
    wfChildren cs = true →
    ∀ q c0, d.lookup q = some (.file c0) →
      (∀ nc : String × Entry, nc ∈ cs → ∀ s, q = p ++ nc.1 :: s →
        nc.2.lookup s = none) →
      d'.lookup q = some (.file c0)

/-- A successful merge implies the merged source subtree holds no entry that
is neither file nor directory. -/
def OtherN (cfg : Config) (c : Entry) (p : List String) (d : Entry) : Prop :=
  ∀ d' ev, merge_node cfg c p d = .ok (d', ev) → c.hasOther = false

def OtherL (cfg : Config) (cs : List (String × Entry)) (p : List String)
    (d : Entry) : Prop :=
  ∀ d' ev, merge_nodes cfg cs p d = .ok (d', ev) → childrenHaveOther cs = false

/-- `synced c f d` says the destination `d` already contains the source
subtree `c` at relative path `f`: every source file is present byte-for-byte
and every source directory position exists. -/
def synced (c : Entry) (f : List String) (d : Entry) : Prop :=
  ∀ s : List String,
    (∀ cont, c.lookup s = some (.file cont) →
      d.lookup (f ++ s) = some (.file cont)) ∧
    (∀ cs, c.lookup s = some (.dir cs) → (d.lookup (f ++ s)).isSome = true)

/-- After a successful merge with no merge helper installed, the destination
contains the merged source subtree. -/
def SyncN (cfg : Config) (c : Entry) (p : List String) (d : Entry) : Prop :=
  cfg.hasMerge = false → ∀ d' ev, merge_node cfg c p d = .ok (d', ev) →
    c.wfNames = true → synced c p d'

def SyncL (cfg : Config) (cs : List (String × Entry)) (p : List String)
    (d : Entry) : Prop :=
  cfg.hasMerge = false → ∀ d' ev, merge_nodes cfg cs p d = .ok (d', ev) →
    nodupKeys cs = true → wfChildren cs = true →
    ∀ nc : String × Entry, nc ∈ cs → synced nc.2 (p ++ [nc.1]) d'

/-- On a destination already synced with the source subtree, a merge with no
merge helper installed succeeds and leaves the destination unchanged. -/
def StabN (cfg : Config) (c : Entry) (p : List String) (d : Entry) : Prop :=
  cfg.hasMerge = false → c.wfNames = true → c.hasOther = false →
    synced c p d → (∀ cont, c = .file cont → p ≠ []) →
    ∃ ev, merge_node cfg c p d = .ok (d, ev)

def StabL (cfg : Config) (cs : List (String × Entry)) (p : List String)
    (d : Entry) : Prop :=
  cfg.hasMerge = false → nodupKeys cs = true → wfChildren cs = true →
    childrenHaveOther cs = false →
    (∀ nc : String × Entry, nc ∈ cs → synced nc.2 (p ++ [nc.1]) d) →
    ∃ ev, merge_nodes cfg cs p d = .ok (d, ev)

/-- What a merge without helper can do to any path: leave it unchanged, write
the source file bytes or a directory at a source position, or grow a
directory on the way to the merged path. -/
def WriteN (cfg : Config) (c : Entry) (p : List String) (d : Entry) : Prop :=
  cfg.hasMerge = false → ∀ d' ev, merge_node cfg c p d = .ok (d', ev) →
    c.wfNames = true →
    ∀ r, d'.lookup r = d.lookup r ∨
      (∃ s, r = p ++ s ∧
        ((∃ cont, c.lookup s = some (.file cont) ∧
            d'.lookup r = some (.file cont)) ∨
         (∃ cs0, c.lookup s = some (.dir cs0) ∧
            (d'.lookup r).isSome = true))) ∨
      (under r p ∧ r ≠ p ∧ ∃ cs0, d'.lookup r = some (.dir cs0))

def WriteL (cfg : Config) (cs : List (String × Entry)) (p : List String)
    (d : Entry) : Prop :=
  cfg.hasMerge = false → ∀ d' ev, merge_nodes cfg cs p d = .ok (d', ev) →
    nodupKeys cs = true → wfChildren cs = true →
    ∀ r, d'.lookup r = d.lookup r ∨
      (∃ nc : String × Entry, nc ∈ cs ∧ ∃ s, r = p ++ nc.1 :: s ∧
        ((∃ cont, nc.2.lookup s = some (.file cont) ∧
            d'.lookup r = some (.file cont)) ∨
         (∃ cs0, nc.2.lookup s = some (.dir cs0) ∧
            (d'.lookup r).isSome = true))) ∨
      (under r p ∧ ∃ cs0, d'.lookup r = some (.dir cs0))

/-- Every declared path of the list is present in the destination, synced
with its source subtree. -/
def SyncAll (cfg : Config) (files : List (List String)) (d : Entry) : Prop :=
  ∀ f ∈ files, ∃ e, cfg.thisDir.lookup f = some e ∧ synced e f d ∧
    e.hasOther = false ∧ (∀ cont, e = .file cont → f ≠ [])

/-- A configuration with no merge helper, whose source tree carries both
plugin layouts. -/
def cfgW : Config :=
  { thisDirStr := "/src"
    usdDirStr := "/usd"
    thisDir := .dir
      [("third_party", .dir
          [("nuke", .dir [("plugin", .dir [("menu.py", .file [1])])]),
           ("houdini", .dir [("h", .file [8])])]),
       ("cmake", .dir []),
       ("CMakeLists.txt", .file [2, 3]),
       ("build_scripts", .dir [("b", .file [4])])]
    hasMerge := false
    helper := fun a _ _ => (0, a) }

/-- A configuration whose source tree is missing the `cmake` path the nuke
plugin declares. -/
def cfgM : Config :=
  { thisDirStr := "/src"
    usdDirStr := "/usd"
    thisDir := .dir [("third_party", .dir [("nuke", .dir [])])]
    hasMerge := false
    helper := fun a _ _ => (0, a) }

/-- A configuration with a merge helper installed that always fails with
exit status 1, appending a byte to the destination content. -/
def cfgH : Config :=
  { thisDirStr := "/src"
    usdDirStr := "/usd"
    thisDir := .dir [("d", .dir [("f", .file [5])])]
    hasMerge := true
    helper := fun a _ _ => (1, a ++ [0]) }

/-- The destination tree as a run of the tool leaves it, whether the run
completed or was stopped by an uncaught exception (whose carried state is the
filesystem at the moment it was raised). -/
def runDest : Except (Err × Entry) (Entry × List Event) → Entry
  | .ok (d, _) => d
  | .error (_, d) => d

/-- Monotonicity of an aborted merge step: the tree carried by the error
holds every entry the destination held before. -/
def MonoEN (cfg : Config) (c : Entry) (p : List String) (d : Entry) : Prop :=
  ∀ er dE, merge_node cfg c p d = .error (er, dE) →
    ∀ r, (d.lookup r).isSome = true → (dE.lookup r).isSome = true

def MonoEL (cfg : Config) (cs : List (String × Entry)) (p : List String)
    (d : Entry) : Prop :=
  ∀ er dE, merge_nodes cfg cs p d = .error (er, dE) →
    ∀ r, (d.lookup r).isSome = true → (dE.lookup r).isSome = true

/-- File preservation by an aborted merge step: in the tree carried by the
error, a destination file at a path with no counterpart in the merged source
subtree keeps its bytes. -/
def KeepEN (cfg : Config) (c : Entry) (p : List String) (d : Entry) : Prop :=
  ∀ er dE, merge_node cfg c p d = .error (er, dE) →
    c.wfNames = true →
    ∀ q c0, d.lookup q = some (.file c0) →
      (∀ s, q = p ++ s → c.lookup s = none) →
      dE.lookup q = some (.file c0)

def KeepEL (cfg : Config) (cs : List (String × Entry)) (p : List String)
    (d : Entry) : Prop :=
  ∀ er dE, merge_nodes cfg cs p d = .error (er, dE) →
    wfChildren cs = true →
    ∀ q c0, d.lookup q = some (.file c0) →
      (∀ nc : String × Entry, nc ∈ cs → ∀ s, q = p ++ nc.1 :: s →
        nc.2.lookup s = none) →
      dE.lookup q = some (.file c0)

/-! ## Theorems -/

theorem under_refl (p : List String) : under p p := ⟨[], by simp⟩

theorem under_app (p s : List String) : under p (p ++ s) := ⟨s, rfl⟩

theorem under_nil (q : List String) : under [] q := ⟨q, rfl⟩

theorem under_trans {p q r : List String} (h1 : under p q) (h2 : under q r) :
    under p r := by
  rcases h1 with ⟨s1, rfl⟩
  rcases h2 with ⟨s2, rfl⟩
  exact ⟨s1 ++ s2, by simp⟩

theorem under_antisymm {p q : List String} (h1 : under p q) (h2 : under q p) :
    p = q := by
  rcases h1 with ⟨s1, rfl⟩
  rcases h2 with ⟨s2, h2⟩
  have hlen := congrArg List.length h2
  rw [List.length_append, List.length_append] at hlen
  have hs1 : s1 = [] := List.eq_nil_of_length_eq_zero (by omega)
  simp [hs1]

theorem under_snoc_iff {r q : List String} {n : String} :
    under r (q ++ [n]) ↔ under r q ∨ r = q ++ [n] := by
  constructor
  · rintro ⟨s, hs⟩
    rcases s.eq_nil_or_concat with rfl | ⟨s0, x, rfl⟩
    · right
      simp at hs
      simp [hs]
    · left
      rw [List.concat_eq_append, ← List.append_assoc] at hs
      rcases List.append_inj' hs rfl with ⟨h1, _⟩
      exact ⟨s0, h1⟩
  · rintro (⟨s, rfl⟩ | rfl)
    · exact ⟨s ++ [n], by simp⟩
    · exact under_refl _

theorem under_cons_iff {r p : List String} {n : String} :
    under (p ++ [n]) r ↔ ∃ s, r = p ++ n :: s := by
  constructor
  · rintro ⟨s, rfl⟩
    exact ⟨s, by simp⟩
  · rintro ⟨s, rfl⟩
    exact ⟨s, by simp⟩

theorem not_under_sib {p : List String} {n m : String} {s : List String}
    (h : n ≠ m) : ¬ under (p ++ [n]) (p ++ m :: s) := by
  rintro ⟨t, ht⟩
  rw [List.append_assoc] at ht
  have h2 : m :: s = [n] ++ t := List.append_cancel_left ht
  injection h2 with h3 _
  exact h h3.symm

theorem not_under_sib' {p : List String} {n m : String} {s : List String}
    (h : n ≠ m) : ¬ under (p ++ m :: s) (p ++ [n]) := by
  rintro ⟨t, ht⟩
  rw [List.append_assoc] at ht
  have h2 : [n] = m :: (s ++ t) := by
    have := List.append_cancel_left ht
    simpa using this
  injection h2 with h3 _
  exact h h3

theorem under_dropLast {p : List String} (hp : p ≠ []) :
    under p.dropLast p := by
  refine ⟨[p.getLast hp], ?_⟩
  rw [List.dropLast_append_getLast hp]

theorem under_dropLast_of_under_ne {q p : List String} (h : under q p)
    (hne : q ≠ p) : under q p.dropLast := by
  rcases h with ⟨s, rfl⟩
  have hs : s ≠ [] := by rintro rfl; simp at hne
  rw [List.dropLast_append_of_ne_nil _ hs]
  exact ⟨s.dropLast, rfl⟩

/-! ## Child list and lookup facts -/

theorem findChild_setChild_self (cs : List (String × Entry)) (n : String)
    (e : Entry) : findChild (setChild cs n e) n = some e := by
  induction cs with
  | nil => simp [setChild, findChild]
  | cons hd rest ih =>
    obtain ⟨m, c⟩ := hd
    by_cases h : m = n
    · simp [setChild, h, findChild]
    · simp [setChild, h, findChild, ih]

theorem findChild_setChild_ne (cs : List (String × Entry)) {n m : String}
    (e : Entry) (h : m ≠ n) :
    findChild (setChild cs n e) m = findChild cs m := by
  induction cs with
  | nil => simp [setChild, findChild, Ne.symm h]
  | cons hd rest ih =>
    obtain ⟨k, c⟩ := hd
    by_cases hk : k = n
    · subst hk
      simp only [setChild, if_pos rfl, findChild]
      rw [if_neg (fun hh => h hh.symm), if_neg (fun hh => h hh.symm)]
    · simp only [setChild, if_neg hk, findChild]
      by_cases hm : k = m
      · simp [hm]
      · simp [hm, ih]

theorem setChild_eq_of_findChild {cs : List (String × Entry)} {n : String}
    {e : Entry} (h : findChild cs n = some e) : setChild cs n e = cs := by
  induction cs with
  | nil => simp [findChild] at h
  | cons hd rest ih =>
    obtain ⟨m, c⟩ := hd
    by_cases hm : m = n
    · subst hm
      simp [findChild] at h
      simp [setChild, h]
    · simp [findChild, hm] at h
      simp [setChild, hm, ih h]

theorem findChild_mem {cs : List (String × Entry)} {n : String} {c : Entry}
    (h : findChild cs n = some c) : (n, c) ∈ cs := by
  induction cs with
  | nil => simp [findChild] at h
  | cons hd rest ih =>
    obtain ⟨m, e⟩ := hd
    by_cases hm : m = n
    · subst hm
      simp [findChild] at h
      simp [h]
    · simp [findChild, hm] at h
      exact List.mem_cons_of_mem _ (ih h)

theorem findChild_of_mem_nodup {cs : List (String × Entry)} {n : String}
    {c : Entry} (hw : nodupKeys cs = true) (h : (n, c) ∈ cs) :
    findChild cs n = some c := by
  induction cs with
  | nil => simp at h
  | cons hd rest ih =>
    obtain ⟨m, e⟩ := hd
    simp only [nodupKeys, Bool.and_eq_true] at hw
    rcases List.mem_cons.mp h with heq | hmem
    · injection heq with h1 h2
      subst h1; subst h2
      simp [findChild]
    · by_cases hm : m = n
      · subst hm
        have h1 := hw.1
        rw [ih hw.2 hmem] at h1
        simp at h1
      · simp only [findChild, if_neg hm]
        exact ih hw.2 hmem

theorem wfChildren_mem {cs : List (String × Entry)} {n : String} {c : Entry}
    (hw : wfChildren cs = true) (h : (n, c) ∈ cs) : c.wfNames = true := by
  induction cs with
  | nil => simp at h
  | cons hd rest ih =>
    obtain ⟨m, e⟩ := hd
    simp [wfChildren] at hw
    rcases List.mem_cons.mp h with heq | hmem
    · injection heq with h1 h2
      subst h2
      exact hw.1
    · exact ih hw.2 hmem

theorem childrenHaveOther_mem {cs : List (String × Entry)} {n : String}
    {c : Entry} (hw : childrenHaveOther cs = false) (h : (n, c) ∈ cs) :
    c.hasOther = false := by
  induction cs with
  | nil => simp at h
  | cons hd rest ih =>
    obtain ⟨m, e⟩ := hd
    simp [childrenHaveOther] at hw
    rcases List.mem_cons.mp h with heq | hmem
    · injection heq with h1 h2
      subst h2
      exact hw.1
    · exact ih hw.2 hmem

theorem lookup_append (e : Entry) (p q : List String) :
    e.lookup (p ++ q) = (e.lookup p).bind (fun x => x.lookup q) := by
  induction p generalizing e with
  | nil => simp [Entry.lookup]
  | cons n rest ih =>
    match e with
    | .file c => simp [Entry.lookup]
    | .other => simp [Entry.lookup]
    | .dir cs =>
      simp only [List.cons_append, Entry.lookup]
      cases findChild cs n with
      | none => simp
      | some c => simp [ih]

theorem lookup_nonempty_dir {v w : Entry} {x : String} {s : List String}
    (h : v.lookup (x :: s) = some w) : ∃ cs, v = .dir cs := by
  match v with
  | .file c => simp [Entry.lookup] at h
  | .other => simp [Entry.lookup] at h
  | .dir cs => exact ⟨cs, rfl⟩

theorem lookup_some_under {e : Entry} {p q : List String}
    (h : (e.lookup q).isSome = true) (hu : under p q) :
    (e.lookup p).isSome = true := by
  rcases hu with ⟨s, rfl⟩
  rw [lookup_append] at h
  cases hl : e.lookup p with
  | none => rw [hl] at h; simp at h
  | some v => simp [hl]

theorem lookup_strict_under_dir {e : Entry} {p q : List String}
    (h : (e.lookup q).isSome = true) (hu : under p q) (hne : p ≠ q) :
    ∃ cs, e.lookup p = some (.dir cs) := by
  rcases hu with ⟨s, rfl⟩
  have hs : s ≠ [] := by rintro rfl; simp at hne
  rw [lookup_append] at h
  cases hl : e.lookup p with
  | none => rw [hl] at h; simp at h
  | some v =>
    rw [hl] at h
    simp only [Option.some_bind] at h
    match s, hs with
    | x :: s', _ =>
      rcases Option.isSome_iff_exists.mp h with ⟨w, hw⟩
      rcases lookup_nonempty_dir hw with ⟨cs, hv⟩
      exact ⟨cs, by rw [hv]⟩

theorem lookup_file_not_under {e : Entry} {p q : List String} {c : List Nat}
    (h : e.lookup p = some (.file c)) (hu : under p q) (hne : p ≠ q) :
    e.lookup q = none := by
  rcases hu with ⟨s, rfl⟩
  have hs : s ≠ [] := by rintro rfl; simp at hne
  rw [lookup_append, h]
  match s, hs with
  | x :: s', _ => simp [Entry.lookup]

theorem hasOther_lookup {e : Entry} (h : e.hasOther = false) :
    ∀ s, e.lookup s ≠ some .other := by
  intro s
  induction s generalizing e with
  | nil =>
    match e with
    | .file c => simp [Entry.lookup]
    | .other => simp [Entry.hasOther] at h
    | .dir cs => simp [Entry.lookup]
  | cons n rest ih =>
    match e with
    | .file c => simp [Entry.lookup]
    | .other => simp [Entry.hasOther] at h
    | .dir cs =>
      simp only [Entry.lookup]
      cases hf : findChild cs n with
      | none => simp
      | some c =>
        have hc : c.hasOther = false := by
          have hmem := findChild_mem hf
          simp [Entry.hasOther] at h
          exact childrenHaveOther_mem h hmem
        exact ih hc

theorem under_cons_cons {n m : String} {r q : List String} :
    under (n :: r) (m :: q) ↔ n = m ∧ under r q := by
  constructor
  · rintro ⟨s, hs⟩
    injection hs with h1 h2
    exact ⟨h1.symm, ⟨s, h2⟩⟩
  · rintro ⟨rfl, ⟨s, rfl⟩⟩
    exact ⟨s, rfl⟩

theorem under_nil_iff {r : List String} : under r [] ↔ r = [] := by
  constructor
  · rintro ⟨s, hs⟩
    rcases List.append_eq_nil.mp hs.symm with ⟨h1, _⟩
    exact h1
  · rintro rfl
    exact under_refl _

theorem under_of_under_dropLast {r p : List String} (h : under r p.dropLast) :
    under r p := by
  rcases p.eq_nil_or_concat with rfl | ⟨q, x, rfl⟩
  · simpa using h
  · rw [List.concat_eq_append] at *
    rw [List.dropLast_concat] at h
    exact under_trans h (under_app q [x])

/-! ## `os.makedirs` lemmas -/

theorem makeDirs_frame {q : List String} :
    ∀ {d d' : Entry}, makeDirs d q = .ok d' →
      ∀ r, ¬ under r q → d'.lookup r = d.lookup r := by
  induction q with
  | nil =>
    intro d d' h r _
    simp only [makeDirs, Except.ok.injEq] at h
    subst h
    rfl
  | cons n rest ih =>
    intro d d' h r hr
    match d with
    | .file c => simp [makeDirs] at h
    | .other => simp [makeDirs] at h
    | .dir cs =>
      simp only [makeDirs] at h
      split at h
      · rename_i cs' hf
        split at h
        · rename_i c' hm
          injection h with h
          subst h
          match r with
          | [] => exact absurd (under_nil _) hr
          | m :: r2 =>
            by_cases hmn : m = n
            · subst hmn
              have hnr : ¬ under r2 rest := fun hu =>
                hr (under_cons_cons.mpr ⟨rfl, hu⟩)
              simp only [Entry.lookup, findChild_setChild_self, hf]
              exact ih hm r2 hnr
            · simp only [Entry.lookup, findChild_setChild_ne _ _ hmn]
        · exact absurd h (by simp)
      · exact absurd h (by simp)
      · rename_i hf
        split at h
        · rename_i c' hm
          injection h with h
          subst h
          match r with
          | [] => exact absurd (under_nil _) hr
          | m :: r2 =>
            by_cases hmn : m = n
            · subst hmn
              have hnr : ¬ under r2 rest := fun hu =>
                hr (under_cons_cons.mpr ⟨rfl, hu⟩)
              have hr2 : r2 ≠ [] := by
                rintro rfl
                exact hnr (under_nil _)
              simp only [Entry.lookup, findChild_setChild_self, hf]
              rw [ih hm r2 hnr]
              match r2, hr2 with
              | x :: r3, _ => simp [Entry.lookup, findChild]
            · simp only [Entry.lookup, findChild_setChild_ne _ _ hmn]
        · exact absurd h (by simp)

theorem makeDirs_post_dir {q : List String} :
    ∀ {d d' : Entry}, makeDirs d q = .ok d' → q ≠ [] →
      ∀ r, under r q → ∃ cs, d'.lookup r = some (.dir cs) := by
  induction q with
  | nil => intro d d' _ hq; exact absurd rfl hq
  | cons n rest ih =>
    intro d d' h _ r hu
    match d with
    | .file c => simp [makeDirs] at h
    | .other => simp [makeDirs] at h
    | .dir cs =>
      simp only [makeDirs] at h
      split at h
      · rename_i cs' hf
        split at h
        · rename_i c' hm
          injection h with h
          subst h
          match r with
          | [] => exact ⟨_, rfl⟩
          | m :: r2 =>
            rcases under_cons_cons.mp hu with ⟨rfl, hu2⟩
            simp only [Entry.lookup, findChild_setChild_self]
            rcases rest.eq_nil_or_concat with rfl | ⟨q0, x, hq0⟩
            · rcases under_nil_iff.mp hu2 with rfl
              simp only [makeDirs, Except.ok.injEq] at hm
              subst hm
              exact ⟨cs', rfl⟩
            · have hrest : rest ≠ [] := by
                rw [hq0]; simp
              exact ih hm hrest r2 hu2
        · exact absurd h (by simp)
      · exact absurd h (by simp)
      · rename_i hf
        split at h
        · rename_i c' hm
          injection h with h
          subst h
          match r with
          | [] => exact ⟨_, rfl⟩
          | m :: r2 =>
            rcases under_cons_cons.mp hu with ⟨rfl, hu2⟩
            simp only [Entry.lookup, findChild_setChild_self]
            rcases rest.eq_nil_or_concat with rfl | ⟨q0, x, hq0⟩
            · rcases under_nil_iff.mp hu2 with rfl
              simp only [makeDirs, Except.ok.injEq] at hm
              subst hm
              exact ⟨[], rfl⟩
            · have hrest : rest ≠ [] := by
                rw [hq0]; simp
              exact ih hm hrest r2 hu2
        · exact absurd h (by simp)

theorem makeDirs_mono {q : List String} :
    ∀ {d d' : Entry}, makeDirs d q = .ok d' →
      ∀ r, (d.lookup r).isSome = true → (d'.lookup r).isSome = true := by
  induction q with
  | nil =>
    intro d d' h r hs
    simp only [makeDirs, Except.ok.injEq] at h
    subst h
    exact hs
  | cons n rest ih =>
    intro d d' h r hs
    match d with
    | .file c => simp [makeDirs] at h
    | .other => simp [makeDirs] at h
    | .dir cs =>
      simp only [makeDirs] at h
      split at h
      · rename_i cs' hf
        split at h
        · rename_i c' hm
          injection h with h
          subst h
          match r with
          | [] => rfl
          | m :: r2 =>
            by_cases hmn : m = n
            · subst hmn
              simp only [Entry.lookup, findChild_setChild_self]
              simp only [Entry.lookup, hf] at hs
              exact ih hm r2 hs
            · simp only [Entry.lookup, findChild_setChild_ne _ _ hmn]
              simpa [Entry.lookup] using hs
        · exact absurd h (by simp)
      · exact absurd h (by simp)
      · rename_i hf
        split at h
        · rename_i c' hm
          injection h with h
          subst h
          match r with
          | [] => rfl
          | m :: r2 =>
            by_cases hmn : m = n
            · subst hmn
              simp only [Entry.lookup, hf] at hs
              simp at hs
            · simp only [Entry.lookup, findChild_setChild_ne _ _ hmn]
              simpa [Entry.lookup] using hs
        · exact absurd h (by simp)

theorem makeDirs_chain_dir {q : List String} :
    ∀ {d d' : Entry}, makeDirs d q = .ok d' → q ≠ [] →
      ∀ r, under r q → ∀ v, d.lookup r = some v →
        ∃ cs, v = .dir cs := by
  induction q with
  | nil => intro d d' _ hq; exact absurd rfl hq
  | cons n rest ih =>
    intro d d' h _ r hu v hv
    match d with
    | .file c => simp [makeDirs] at h
    | .other => simp [makeDirs] at h
    | .dir cs =>
      match r with
      | [] =>
        simp only [Entry.lookup, Option.some.injEq] at hv
        exact ⟨cs, hv.symm⟩
      | m :: r2 =>
        rcases under_cons_cons.mp hu with ⟨rfl, hu2⟩
        simp only [makeDirs] at h
        split at h
        · rename_i cs' hf
          split at h
          · rename_i c' hm
            simp only [Entry.lookup, hf] at hv
            match r2 with
            | [] =>
              simp only [Entry.lookup, Option.some.injEq] at hv
              exact ⟨cs', hv.symm⟩
            | x :: r3 =>
              have hrest : rest ≠ [] := by
                rcases hu2 with ⟨s, hs⟩
                rw [hs]; simp
              exact ih hm hrest _ hu2 v hv
          · exact absurd h (by simp)
        · exact absurd h (by simp)
        · rename_i hf
          simp only [Entry.lookup, hf] at hv
          exact absurd hv (by simp)

/-! ## `shutil.copyfile` lemmas -/

theorem copyfile_cases {cont : List Nat} {q : List String} :
    ∀ {d d' : Entry}, copyfile d q cont = .ok d' →
      ∀ r, d'.lookup r = d.lookup r ∨
        (r = q ∧ d'.lookup r = some (.file cont)) ∨
        (under r q ∧ r ≠ q ∧ ∃ cs, d'.lookup r = some (.dir cs)) := by
  induction q with
  | nil => intro d d' h; simp [copyfile] at h
  | cons n r2 ih =>
    intro d d' h r
    match d with
    | .file c => match r2 with
      | [] => simp [copyfile] at h
      | _ :: _ => simp [copyfile] at h
    | .other => match r2 with
      | [] => simp [copyfile] at h
      | _ :: _ => simp [copyfile] at h
    | .dir cs =>
      match r2 with
      | [] =>
        simp only [copyfile] at h
        split at h
        · exact absurd h (by simp)
        · rename_i hneg
          injection h with h
          subst h
          match r with
          | [] =>
            exact .inr (.inr ⟨under_nil _, by simp, _, rfl⟩)
          | m :: r3 =>
            by_cases hmn : m = n
            · subst hmn
              match r3 with
              | [] =>
                exact .inr (.inl ⟨rfl, by
                  simp [Entry.lookup, findChild_setChild_self]⟩)
              | y :: r4 =>
                refine .inl ?_
                simp only [Entry.lookup, findChild_setChild_self]
                cases hf : findChild cs m with
                | none => simp [Entry.lookup]
                | some c =>
                  match c with
                  | .file cc => simp [Entry.lookup]
                  | .other => simp [Entry.lookup]
                  | .dir cs2 => exact absurd hf (by intro hh; exact hneg cs2 hh)
            · refine .inl ?_
              simp only [Entry.lookup, findChild_setChild_ne _ _ hmn]
      | x :: r3 =>
        simp only [copyfile] at h
        split at h
        · rename_i c hf
          split at h
          · rename_i c' hm
            injection h with h
            subst h
            match r with
            | [] =>
              exact .inr (.inr ⟨under_nil _, by simp, _, rfl⟩)
            | m :: r4 =>
              by_cases hmn : m = n
              · subst hmn
                simp only [Entry.lookup, findChild_setChild_self, hf]
                rcases ih hm r4 with h1 | ⟨rfl, h2⟩ | ⟨hu, hne, cs2, h3⟩
                · exact .inl h1
                · exact .inr (.inl ⟨rfl, h2⟩)
                · exact .inr (.inr ⟨under_cons_cons.mpr ⟨rfl, hu⟩,
                    by simp [hne], cs2, h3⟩)
              · refine .inl ?_
                simp only [Entry.lookup, findChild_setChild_ne _ _ hmn]
          · exact absurd h (by simp)
        · exact absurd h (by simp)

theorem copyfile_ok_lookup {cont : List Nat} {q : List String} :
    ∀ {d d' : Entry}, copyfile d q cont = .ok d' →
      d'.lookup q = some (.file cont) := by
  induction q with
  | nil => intro d d' h; simp [copyfile] at h
  | cons n r2 ih =>
    intro d d' h
    match d with
    | .file c => match r2 with
      | [] => simp [copyfile] at h
      | _ :: _ => simp [copyfile] at h
    | .other => match r2 with
      | [] => simp [copyfile] at h
      | _ :: _ => simp [copyfile] at h
    | .dir cs =>
      match r2 with
      | [] =>
        simp only [copyfile] at h
        split at h
        · exact absurd h (by simp)
        · injection h with h
          subst h
          simp [Entry.lookup, findChild_setChild_self]
      | x :: r3 =>
        simp only [copyfile] at h
        split at h
        · rename_i c hf
          split at h
          · rename_i c' hm
            injection h with h
            subst h
            simp only [Entry.lookup, findChild_setChild_self]
            exact ih hm
          · exact absurd h (by simp)
        · exact absurd h (by simp)

theorem copyfile_chain_dir {cont : List Nat} {q : List String} :
    ∀ {d d' : Entry}, copyfile d q cont = .ok d' →
      ∀ r, under r q → r ≠ q → ∀ v, d.lookup r = some v →
        ∃ cs, v = .dir cs := by
  induction q with
  | nil => intro d d' h; simp [copyfile] at h
  | cons n r2 ih =>
    intro d d' h r hu hne v hv
    match d with
    | .file c => match r2 with
      | [] => simp [copyfile] at h
      | _ :: _ => simp [copyfile] at h
    | .other => match r2 with
      | [] => simp [copyfile] at h
      | _ :: _ => simp [copyfile] at h
    | .dir cs =>
      match r with
      | [] =>
        simp only [Entry.lookup, Option.some.injEq] at hv
        exact ⟨cs, hv.symm⟩
      | m :: r4 =>
        rcases under_cons_cons.mp hu with ⟨rfl, hu2⟩
        have hne2 : r4 ≠ r2 := by
          rintro rfl; exact hne rfl
        match r2 with
        | [] =>
          rcases under_nil_iff.mp hu2 with rfl
          exact absurd rfl hne2
        | x :: r3 =>
          simp only [copyfile] at h
          split at h
          · rename_i c hf
            split at h
            · rename_i c' hm
              simp only [Entry.lookup, hf] at hv
              exact ih hm r4 hu2 hne2 v hv
            · exact absurd h (by simp)
          · exact absurd h (by simp)

theorem copyfile_not_dir {cont : List Nat} {q : List String} :
    ∀ {d d' : Entry}, copyfile d q cont = .ok d' →
      ∀ cs0, d.lookup q ≠ some (.dir cs0) := by
  induction q with
  | nil => intro d d' h; simp [copyfile] at h
  | cons n r2 ih =>
    intro d d' h cs0 hv
    match d with
    | .file c => match r2 with
      | [] => simp [copyfile] at h
      | _ :: _ => simp [copyfile] at h
    | .other => match r2 with
      | [] => simp [copyfile] at h
      | _ :: _ => simp [copyfile] at h
    | .dir cs =>
      match r2 with
      | [] =>
        simp only [copyfile] at h
        split at h
        · exact absurd h (by simp)
        · rename_i hneg
          simp only [Entry.lookup] at hv
          cases hf : findChild cs n with
          | none => rw [hf] at hv; simp [Entry.lookup] at hv
          | some c =>
            rw [hf] at hv
            match c with
            | .file cc => simp [Entry.lookup] at hv
            | .other => simp [Entry.lookup] at hv
            | .dir cs2 => exact hneg cs2 hf
      | x :: r3 =>
        simp only [copyfile] at h
        split at h
        · rename_i c hf
          split at h
          · rename_i c' hm
            simp only [Entry.lookup, hf] at hv
            exact ih hm cs0 hv
          · exact absurd h (by simp)
        · exact absurd h (by simp)

theorem copyfile_self {cont : List Nat} {q : List String} :
    ∀ {d : Entry}, d.lookup q = some (.file cont) → q ≠ [] →
      copyfile d q cont = .ok d := by
  induction q with
  | nil => intro d _ hq; exact absurd rfl hq
  | cons n r2 ih =>
    intro d hv _
    match d with
    | .file c => simp [Entry.lookup] at hv
    | .other => simp [Entry.lookup] at hv
    | .dir cs =>
      simp only [Entry.lookup] at hv
      cases hf : findChild cs n with
      | none => rw [hf] at hv; simp at hv
      | some c =>
        rw [hf] at hv
        match r2 with
        | [] =>
          simp only [Entry.lookup, Option.some.injEq] at hv
          subst hv
          simp only [copyfile, hf]
          rw [setChild_eq_of_findChild hf]
        | x :: r3 =>
          have hc := ih hv (by simp)
          simp only [copyfile, hf, hc]
          rw [setChild_eq_of_findChild hf]

theorem copyfile_frame {cont : List Nat} {q : List String} {d d' : Entry}
    (h : copyfile d q cont = .ok d') :
    ∀ r, ¬ under r q → d'.lookup r = d.lookup r := by
  intro r hr
  rcases copyfile_cases h r with h1 | ⟨rfl, _⟩ | ⟨hu, _, _⟩
  · exact h1
  · exact absurd (under_refl _) hr
  · exact absurd hu hr

theorem copyfile_mono {cont : List Nat} {q : List String} {d d' : Entry}
    (h : copyfile d q cont = .ok d') :
    ∀ r, (d.lookup r).isSome = true → (d'.lookup r).isSome = true := by
  intro r hs
  rcases copyfile_cases h r with h1 | ⟨rfl, h2⟩ | ⟨_, _, cs, h3⟩
  · rw [h1]; exact hs
  · rw [h2]; rfl
  · rw [h3]; rfl

/-! ## `Entry.setAt` lemmas -/

theorem setAt_lookup_self {q : List String} :
    ∀ {d : Entry} (e : Entry), (d.lookup q).isSome = true →
      (d.setAt q e).lookup q = some e := by
  induction q with
  | nil => intro d e _; rfl
  | cons n r2 ih =>
    intro d e hs
    match d with
    | .file c => simp [Entry.lookup] at hs
    | .other => simp [Entry.lookup] at hs
    | .dir cs =>
      simp only [Entry.lookup] at hs
      cases hf : findChild cs n with
      | none => rw [hf] at hs; simp at hs
      | some c =>
        rw [hf] at hs
        simp only [Entry.setAt, hf, Entry.lookup, findChild_setChild_self]
        exact ih e hs

theorem setAt_cases (q : List String) :
    ∀ (d e : Entry) (r : List String),
      (d.setAt q e).lookup r = d.lookup r ∨
      (∃ s, r = q ++ s ∧ (d.setAt q e).lookup r = e.lookup s) ∨
      (under r q ∧ r ≠ q ∧ ∃ cs, (d.setAt q e).lookup r = some (.dir cs)) := by
  induction q with
  | nil =>
    intro d e r
    exact .inr (.inl ⟨r, by simp, rfl⟩)
  | cons n r2 ih =>
    intro d e r
    match d with
    | .file c => exact .inl rfl
    | .other => exact .inl rfl
    | .dir cs =>
      cases hf : findChild cs n with
      | none => refine .inl ?_; simp only [Entry.setAt, hf]
      | some c =>
        simp only [Entry.setAt, hf]
        match r with
        | [] =>
          exact .inr (.inr ⟨under_nil _, by simp, _, rfl⟩)
        | m :: r4 =>
          by_cases hmn : m = n
          · subst hmn
            simp only [Entry.lookup, findChild_setChild_self, hf]
            rcases ih c e r4 with h1 | ⟨s, rfl, h2⟩ | ⟨hu, hne, cs2, h3⟩
            · exact .inl h1
            · exact .inr (.inl ⟨s, by simp, h2⟩)
            · exact .inr (.inr ⟨under_cons_cons.mpr ⟨rfl, hu⟩,
                by simp [hne], cs2, h3⟩)
          · refine .inl ?_
            simp only [Entry.lookup, findChild_setChild_ne _ _ hmn]

theorem setAt_frame {q : List String} {d e : Entry} {r : List String}
    (h1 : ¬ under r q) (h2 : ¬ under q r) :
    (d.setAt q e).lookup r = d.lookup r := by
  rcases setAt_cases q d e r with hc | ⟨s, rfl, _⟩ | ⟨hu, _, _⟩
  · exact hc
  · exact absurd (under_app _ _) h2
  · exact absurd hu h1

/-! ## `shutil.copytree` lemmas -/

theorem copytree_elim {d d' src : Entry} {q : List String}
    (h : copytree d q src = .ok d') :
    src.hasOther = false ∧
      ∃ dm, makeDirs d q = .ok dm ∧ d' = dm.setAt q src := by
  simp only [copytree] at h
  split at h
  · exact absurd h (by simp)
  · rename_i hother
    split at h
    · rename_i dm hm
      injection h with h
      exact ⟨by simpa using hother, dm, hm, h.symm⟩
    · exact absurd h (by simp)

theorem copytree_at {d d' src : Entry} {q : List String}
    (h : copytree d q src = .ok d') :
    ∀ s, d'.lookup (q ++ s) = src.lookup s := by
  rcases copytree_elim h with ⟨_, dm, hm, rfl⟩
  have hsome : (dm.lookup q).isSome = true := by
    rcases q.eq_nil_or_concat with rfl | ⟨q0, x, hq0⟩
    · simp only [makeDirs, Except.ok.injEq] at hm
      subst hm
      rfl
    · have hq : q ≠ [] := by rw [hq0]; simp
      rcases makeDirs_post_dir hm hq q (under_refl q) with ⟨cs, hcs⟩
      simp [hcs]
  intro s
  rw [lookup_append, setAt_lookup_self src hsome]
  rfl

theorem copytree_frame {d d' src : Entry} {q : List String}
    (h : copytree d q src = .ok d') :
    ∀ r, ¬ under r q → ¬ under q r → d'.lookup r = d.lookup r := by
  rcases copytree_elim h with ⟨_, dm, hm, rfl⟩
  intro r h1 h2
  rw [setAt_frame h1 h2]
  exact makeDirs_frame hm r h1

theorem copytree_cases {d d' src : Entry} {q : List String}
    (h : copytree d q src = .ok d') :
    ∀ r, d'.lookup r = d.lookup r ∨
      (∃ s, r = q ++ s ∧ d'.lookup r = src.lookup s) ∨
      (under r q ∧ r ≠ q ∧ ∃ cs, d'.lookup r = some (.dir cs)) := by
  intro r
  by_cases hqr : under q r
  · rcases hqr with ⟨s, rfl⟩
    exact .inr (.inl ⟨s, rfl, copytree_at h s⟩)
  · by_cases hrq : under r q
    · have hne : r ≠ q := by
        rintro rfl
        exact hqr (under_refl _)
      have hq : q ≠ [] := by
        rintro rfl
        exact hqr (under_nil _)
      rcases copytree_elim h with ⟨_, dm, hm, rfl⟩
      rcases makeDirs_post_dir hm hq r hrq with ⟨cs, hcs⟩
      rcases setAt_cases q dm src r with h1 | ⟨s, rfl, _⟩ | ⟨_, _, cs2, h3⟩
      · exact .inr (.inr ⟨hrq, hne, cs, by rw [h1, hcs]⟩)
      · exact absurd (under_app _ _) hqr
      · exact .inr (.inr ⟨hrq, hne, cs2, h3⟩)
    · exact .inl (copytree_frame h r hrq hqr)

theorem copytree_mono_of_none {d d' src : Entry} {q : List String}
    (h : copytree d q src = .ok d') (hq : d.lookup q = none) :
    ∀ r, (d.lookup r).isSome = true → (d'.lookup r).isSome = true := by
  intro r hs
  rcases copytree_cases h r with h1 | ⟨s, rfl, _⟩ | ⟨_, _, cs, h3⟩
  · rw [h1]; exact hs
  · rw [lookup_append, hq] at hs
    simp at hs
  · rw [h3]; rfl

/-! ## `make_parent_dirs` lemmas -/

theorem make_parent_dirs_elim {d d' : Entry} {p : List String}
    (h : make_parent_dirs d p = .ok d') :
    (d' = d ∧ (d.lookup p.dropLast).isSome = true) ∨
      (d.lookup p.dropLast = none ∧ makeDirs d p.dropLast = .ok d') := by
  simp only [make_parent_dirs] at h
  split at h
  · rename_i hs
    injection h with h
    exact .inl ⟨h.symm, hs⟩
  · rename_i hs
    refine .inr ⟨?_, h⟩
    simpa using hs

theorem make_parent_dirs_frame {d d' : Entry} {p : List String}
    (h : make_parent_dirs d p = .ok d') :
    ∀ r, ¬ under r p.dropLast → d'.lookup r = d.lookup r := by
  intro r hr
  rcases make_parent_dirs_elim h with ⟨rfl, _⟩ | ⟨_, hm⟩
  · rfl
  · exact makeDirs_frame hm r hr

theorem make_parent_dirs_mono {d d' : Entry} {p : List String}
    (h : make_parent_dirs d p = .ok d') :
    ∀ r, (d.lookup r).isSome = true → (d'.lookup r).isSome = true := by
  intro r hs
  rcases make_parent_dirs_elim h with ⟨rfl, _⟩ | ⟨_, hm⟩
  · exact hs
  · exact makeDirs_mono hm r hs

theorem make_parent_dirs_cases {d d' : Entry} {p : List String}
    (h : make_parent_dirs d p = .ok d') :
    ∀ r, d'.lookup r = d.lookup r ∨
      (under r p.dropLast ∧ ∃ cs, d'.lookup r = some (.dir cs)) := by
  intro r
  rcases make_parent_dirs_elim h with ⟨rfl, _⟩ | ⟨hnone, hm⟩
  · exact .inl rfl
  · by_cases hr : under r p.dropLast
    · have hne : p.dropLast ≠ [] := by
        intro hd
        rw [hd] at hnone
        simp [Entry.lookup] at hnone
      rcases makeDirs_post_dir hm hne r hr with ⟨cs, hcs⟩
      exact .inr ⟨hr, cs, hcs⟩
    · exact .inl (makeDirs_frame hm r hr)

/-! ## Merge walk lemmas -/

theorem under_length {p q : List String} (h : under p q) :
    p.length ≤ q.length := by
  rcases h with ⟨s, rfl⟩
  simp

theorem not_under_dropLast_self {p : List String} (hp : p ≠ []) :
    ¬ under p p.dropLast := by
  intro h
  have h1 := under_length h
  rw [List.length_dropLast] at h1
  have h2 : 0 < p.length := List.length_pos.mpr hp
  omega

/-- The destination tree after a successful `merge_node` holds every entry the
destination held before: the tool never deletes or renames anything. -/
theorem merge_node_mono (cfg : Config) :
    ∀ (c : Entry) (p : List String) (d : Entry),
      ∀ d' ev, merge_node cfg c p d = .ok (d', ev) →
        ∀ r, (d.lookup r).isSome = true → (d'.lookup r).isSome = true := by
  refine merge_node.induct cfg
    (fun c p d => ∀ d' ev, merge_node cfg c p d = .ok (d', ev) →
      ∀ r, (d.lookup r).isSome = true → (d'.lookup r).isSome = true)
    (fun cs p d => ∀ d' ev, merge_nodes cfg cs p d = .ok (d', ev) →
      ∀ r, (d.lookup r).isSome = true → (d'.lookup r).isSome = true)
    ?_ ?_ ?_ ?_ ?_ ?_ ?_ ?_ ?_ ?_
  · -- a file node: merge_file
    intro p d content d' ev h r hs
    simp only [merge_node, merge_file] at h
    split at h
    · -- copy branch
      split at h
      · exact absurd h (by simp)
      · rename_i d1 hmp
        split at h
        · exact absurd h (by simp)
        · rename_i d2 hcf
          simp only [Except.ok.injEq, Prod.mk.injEq] at h
          obtain ⟨hd, -⟩ := h
          subst hd
          exact copyfile_mono hcf r (make_parent_dirs_mono hmp r hs)
    · -- helper branch
      split at h
      · rename_i old hl
        simp only [Except.ok.injEq, Prod.mk.injEq] at h
        obtain ⟨hd, -⟩ := h
        subst hd
        rcases setAt_cases p d (.file (cfg.helper old old content).2) r
          with h1 | ⟨s, rfl, h2⟩ | ⟨_, _, cs2, h3⟩
        · rw [h1]; exact hs
        · rw [h2]
          match s with
          | [] => rfl
          | x :: s2 =>
            rw [lookup_append, hl] at hs
            simp [Entry.lookup] at hs
        · rw [h3]; rfl
      · simp only [Except.ok.injEq, Prod.mk.injEq] at h
        obtain ⟨hd, -⟩ := h
        subst hd
        exact hs
  · -- an `other` node: fatal error
    intro p d d' ev h
    simp only [merge_node] at h
    exact absurd h (by simp)
  · -- existing destination dir: child walk
    intro p d cs hsome ih d' ev h r hs
    simp only [merge_node, if_pos hsome] at h
    exact ih d' ev h r hs
  · -- copy branch, make_parent_dirs fails
    intro p d cs hnone e hmp d' ev h
    simp only [merge_node, if_neg hnone] at h
    rw [hmp] at h
    simp at h
  · -- copy branch, copytree fails
    intro p d cs hnone d2 hmp e hct d' ev h
    simp only [merge_node, if_neg hnone] at h
    rw [hmp] at h
    simp [hct] at h
  · -- copy branch succeeds
    intro p d cs hnone d2 hmp d3 hct d' ev h r hs
    simp only [merge_node, if_neg hnone] at h
    rw [hmp] at h
    simp only [hct, Except.ok.injEq, Prod.mk.injEq] at h
    obtain ⟨hd, -⟩ := h
    subst hd
    have hp : p ≠ [] := by
      rintro rfl
      simp [Entry.lookup] at hnone
    have hnone' : d.lookup p = none := by
      cases hdp : d.lookup p with
      | none => rfl
      | some v => rw [hdp] at hnone; simp at hnone
    have hd2p : d2.lookup p = none := by
      rw [make_parent_dirs_frame hmp p
        (fun hu => not_under_dropLast_self hp hu)]
      exact hnone'
    exact copytree_mono_of_none hct hd2p r (make_parent_dirs_mono hmp r hs)
  · -- empty child list
    intro p d d' ev h r hs
    simp only [merge_nodes, Except.ok.injEq, Prod.mk.injEq] at h
    obtain ⟨hd, -⟩ := h
    subst hd
    exact hs
  · -- child fails
    intro p d m e rest e1 hc ih d' ev h
    simp only [merge_nodes, hc] at h
    exact absurd h (by simp)
  · -- child ok, remaining children fail
    intro p d m e rest d2 ev2 hc e1 hrest ih1 ih2 d' ev h
    simp only [merge_nodes, hc, hrest] at h
    exact absurd h (by simp)
  · -- child and remaining children ok
    intro p d m e rest d2 ev2 hc d3 ev3 hrest ih1 ih2 d' ev h r hs
    simp only [merge_nodes, hc, hrest, Except.ok.injEq, Prod.mk.injEq] at h
    obtain ⟨hd, -⟩ := h
    subst hd
    exact ih2 d3 ev3 hrest r (ih1 d2 ev2 hc r hs)

theorem frame_file (cfg : Config) :
    ∀ (p : List String) (d : Entry) (content : List Nat),
      FrameN cfg (.file content) p d := by
  intro p d content d' ev h r hpr hrp
  simp only [merge_node, merge_file] at h
  split at h
  · split at h
    · exact absurd h (by simp)
    · rename_i d1 hmp
      split at h
      · exact absurd h (by simp)
      · rename_i d2 hcf
        simp only [Except.ok.injEq, Prod.mk.injEq] at h
        obtain ⟨hd, -⟩ := h
        subst hd
        rw [copyfile_frame hcf r hrp]
        exact make_parent_dirs_frame hmp r
          (fun hu => hrp (under_of_under_dropLast hu))
  · split at h
    · rename_i old hl
      simp only [Except.ok.injEq, Prod.mk.injEq] at h
      obtain ⟨hd, -⟩ := h
      subst hd
      exact setAt_frame hrp hpr
    · simp only [Except.ok.injEq, Prod.mk.injEq] at h
      obtain ⟨hd, -⟩ := h
      subst hd
      rfl

theorem frame_other (cfg : Config) :
    ∀ (p : List String) (d : Entry), FrameN cfg .other p d := by
  intro p d d' ev h
  simp only [merge_node] at h
  exact absurd h (by simp)

theorem frame_walk (cfg : Config) :
    ∀ (p : List String) (d : Entry) (cs : List (String × Entry)),
      (d.lookup p).isSome = true → FrameL cfg cs p d →
        FrameN cfg (.dir cs) p d := by
  intro p d cs hsome ih d' ev h r hpr hrp
  simp only [merge_node, if_pos hsome] at h
  refine ih d' ev h r ?_
  intro nc _
  refine ⟨fun hu => hpr (under_trans (under_app p [nc.1]) hu), fun hu => ?_⟩
  rcases under_snoc_iff.mp hu with h1 | rfl
  · exact hrp h1
  · exact hpr (under_app p [nc.1])

theorem frame_mpd_err (cfg : Config) :
    ∀ (p : List String) (d : Entry) (cs : List (String × Entry)),
      ¬(d.lookup p).isSome = true →
        ∀ (e : Err), make_parent_dirs d p = .error e →
          FrameN cfg (.dir cs) p d := by
  intro p d cs hnone e hmp d' ev h
  simp only [merge_node, if_neg hnone] at h
  rw [hmp] at h
  simp at h

theorem frame_ct_err (cfg : Config) :
    ∀ (p : List String) (d : Entry) (cs : List (String × Entry)),
      ¬(d.lookup p).isSome = true →
        ∀ (d2 : Entry), make_parent_dirs d p = .ok d2 →
          ∀ (e : Err), copytree d2 p (.dir cs) = .error e →
            FrameN cfg (.dir cs) p d := by
  intro p d cs hnone d2 hmp e hct d' ev h
  simp only [merge_node, if_neg hnone] at h
  rw [hmp] at h
  simp [hct] at h

theorem frame_copy_ok (cfg : Config) :
    ∀ (p : List String) (d : Entry) (cs : List (String × Entry)),
      ¬(d.lookup p).isSome = true →
        ∀ (d2 : Entry), make_parent_dirs d p = .ok d2 →
          ∀ (d3 : Entry), copytree d2 p (.dir cs) = .ok d3 →
            FrameN cfg (.dir cs) p d := by
  intro p d cs hnone d2 hmp d3 hct d' ev h r hpr hrp
  simp only [merge_node, if_neg hnone] at h
  rw [hmp] at h
  simp only [hct, Except.ok.injEq, Prod.mk.injEq] at h
  obtain ⟨hd, -⟩ := h
  subst hd
  rw [copytree_frame hct r hrp hpr]
  exact make_parent_dirs_frame hmp r
    (fun hu => hrp (under_of_under_dropLast hu))

theorem frame_nil (cfg : Config) :
    ∀ (p : List String) (d : Entry), FrameL cfg [] p d := by
  intro p d d' ev h r _
  simp only [merge_nodes, Except.ok.injEq, Prod.mk.injEq] at h
  obtain ⟨hd, -⟩ := h
  subst hd
  rfl

theorem frame_child_err (cfg : Config) :
    ∀ (p : List String) (d : Entry) (m : String) (e : Entry)
      (rest : List (String × Entry)) (e1 : Err × Entry),
      merge_node cfg e (p ++ [m]) d = .error e1 →
        FrameN cfg e (p ++ [m]) d → FrameL cfg ((m, e) :: rest) p d := by
  intro p d m e rest e1 hc _ d' ev h
  simp only [merge_nodes, hc] at h
  exact absurd h (by simp)

theorem frame_rest_err (cfg : Config) :
    ∀ (p : List String) (d : Entry) (m : String) (e : Entry)
      (rest : List (String × Entry)) (d2 : Entry) (ev2 : List Event),
      merge_node cfg e (p ++ [m]) d = .ok (d2, ev2) →
        ∀ (e1 : Err × Entry), merge_nodes cfg rest p d2 = .error e1 →
          FrameN cfg e (p ++ [m]) d → FrameL cfg rest p d2 →
            FrameL cfg ((m, e) :: rest) p d := by
  intro p d m e rest d2 ev2 hc e1 hrest _ _ d' ev h
  simp only [merge_nodes, hc, hrest] at h
  exact absurd h (by simp)

theorem frame_cons_ok (cfg : Config) :
    ∀ (p : List String) (d : Entry) (m : String) (e : Entry)
      (rest : List (String × Entry)) (d2 : Entry) (ev2 : List Event),
      merge_node cfg e (p ++ [m]) d = .ok (d2, ev2) →
        ∀ (d3 : Entry) (ev3 : List Event),
          merge_nodes cfg rest p d2 = .ok (d3, ev3) →
            FrameN cfg e (p ++ [m]) d → FrameL cfg rest p d2 →
              FrameL cfg ((m, e) :: rest) p d := by
  intro p d m e rest d2 ev2 hc d3 ev3 hrest ih1 ih2 d' ev h r hall
  simp only [merge_nodes, hc, hrest, Except.ok.injEq, Prod.mk.injEq] at h
  obtain ⟨hd, -⟩ := h
  subst hd
  have hhead := hall (m, e) (List.mem_cons_self _ _)
  rw [ih2 d3 ev3 hrest r (fun nc hmem => hall nc (List.mem_cons_of_mem _ hmem))]
  exact ih1 d2 ev2 hc r hhead.1 hhead.2

/-- Frame property of `merge_node`, assembled over the walk. -/
theorem merge_node_frame (cfg : Config) :
    ∀ c p d, FrameN cfg c p d :=
  merge_node.induct cfg (FrameN cfg) (FrameL cfg)
    (frame_file cfg) (frame_other cfg) (frame_walk cfg) (frame_mpd_err cfg)
    (frame_ct_err cfg) (frame_copy_ok cfg) (frame_nil cfg)
    (frame_child_err cfg) (frame_rest_err cfg) (frame_cons_ok cfg)

/-- Frame property of `merge_nodes`, assembled over the walk. -/
theorem merge_nodes_frame (cfg : Config) :
    ∀ cs p d, FrameL cfg cs p d :=
  merge_nodes.induct cfg (FrameN cfg) (FrameL cfg)
    (frame_file cfg) (frame_other cfg) (frame_walk cfg) (frame_mpd_err cfg)
    (frame_ct_err cfg) (frame_copy_ok cfg) (frame_nil cfg)
    (frame_child_err cfg) (frame_rest_err cfg) (frame_cons_ok cfg)

theorem copyfile_ok_ne_nil {d d' : Entry} {p : List String} {cont : List Nat}
    (h : copyfile d p cont = .ok d') : p ≠ [] := by
  rintro rfl
  simp [copyfile] at h

theorem keep_file (cfg : Config) :
    ∀ (p : List String) (d : Entry) (content : List Nat),
      KeepN cfg (.file content) p d := by
  intro p d content d' ev h _ q c0 hq hcond
  have hqp : q ≠ p := by
    intro hqp'
    have h0 := hcond [] (by simp [hqp'])
    simp [Entry.lookup] at h0
  simp only [merge_node, merge_file] at h
  split at h
  · split at h
    · exact absurd h (by simp)
    · rename_i d1 hmp
      split at h
      · exact absurd h (by simp)
      · rename_i d2 hcf
        simp only [Except.ok.injEq, Prod.mk.injEq] at h
        obtain ⟨hd, -⟩ := h
        subst hd
        have hp : p ≠ [] := copyfile_ok_ne_nil hcf
        by_cases hqp2 : under q p
        · rcases make_parent_dirs_elim hmp with ⟨rfl, _⟩ | ⟨hnone2, hmk⟩
          · rcases copyfile_chain_dir hcf q hqp2 hqp _ hq with ⟨cs2, hcs2⟩
            cases hcs2
          · have hq2 : under q p.dropLast := under_dropLast_of_under_ne hqp2 hqp
            have hdne : p.dropLast ≠ [] := by
              intro h0
              rw [h0] at hnone2
              simp [Entry.lookup] at hnone2
            rcases makeDirs_chain_dir hmk hdne q hq2 _ hq with ⟨cs2, hcs2⟩
            cases hcs2
        · by_cases hpq : under p q
          · have hsome : (d.lookup q).isSome = true := by simp [hq]
            rcases lookup_strict_under_dir hsome hpq
              (fun hh => hqp hh.symm) with ⟨cs2, hcs2⟩
            have hd1p : d1.lookup p = some (.dir cs2) := by
              rw [make_parent_dirs_frame hmp p (not_under_dropLast_self hp)]
              exact hcs2
            exact absurd hd1p (copyfile_not_dir hcf cs2)
          · rw [copyfile_frame hcf q hqp2]
            rw [make_parent_dirs_frame hmp q
              (fun hu => hqp2 (under_of_under_dropLast hu))]
            exact hq
  · split at h
    · rename_i old hl
      simp only [Except.ok.injEq, Prod.mk.injEq] at h
      obtain ⟨hd, -⟩ := h
      subst hd
      by_cases hpq : under p q
      · rw [lookup_file_not_under hl hpq (fun hh => hqp hh.symm)] at hq
        exact absurd hq (by simp)
      · by_cases hqp2 : under q p
        · have hsome : (d.lookup p).isSome = true := by simp [hl]
          rcases lookup_strict_under_dir hsome hqp2 hqp with ⟨cs2, hcs2⟩
          rw [hq] at hcs2
          exact absurd hcs2 (by simp)
        · rw [setAt_frame hqp2 hpq]
          exact hq
    · simp only [Except.ok.injEq, Prod.mk.injEq] at h
      obtain ⟨hd, -⟩ := h
      subst hd
      exact hq

theorem keep_other (cfg : Config) :
    ∀ (p : List String) (d : Entry), KeepN cfg .other p d := by
  intro p d d' ev h
  simp only [merge_node] at h
  exact absurd h (by simp)

theorem keep_walk (cfg : Config) :
    ∀ (p : List String) (d : Entry) (cs : List (String × Entry)),
      (d.lookup p).isSome = true → KeepL cfg cs p d →
        KeepN cfg (.dir cs) p d := by
  intro p d cs hsome ih d' ev h hw q c0 hq hcond
  simp only [merge_node, if_pos hsome] at h
  simp only [Entry.wfNames, Bool.and_eq_true] at hw
  refine ih d' ev h hw.2 q c0 hq ?_
  intro nc hmem s hs
  obtain ⟨n1, c1⟩ := nc
  have h0 := hcond (n1 :: s) hs
  simp only [Entry.lookup] at h0
  rw [findChild_of_mem_nodup hw.1 hmem] at h0
  exact h0

theorem keep_mpd_err (cfg : Config) :
    ∀ (p : List String) (d : Entry) (cs : List (String × Entry)),
      ¬(d.lookup p).isSome = true →
        ∀ (e : Err), make_parent_dirs d p = .error e →
          KeepN cfg (.dir cs) p d := by
  intro p d cs hnone e hmp d' ev h
  simp only [merge_node, if_neg hnone] at h
  rw [hmp] at h
  simp at h

theorem keep_ct_err (cfg : Config) :
    ∀ (p : List String) (d : Entry) (cs : List (String × Entry)),
      ¬(d.lookup p).isSome = true →
        ∀ (d2 : Entry), make_parent_dirs d p = .ok d2 →
          ∀ (e : Err), copytree d2 p (.dir cs) = .error e →
            KeepN cfg (.dir cs) p d := by
  intro p d cs hnone d2 hmp e hct d' ev h
  simp only [merge_node, if_neg hnone] at h
  rw [hmp] at h
  simp [hct] at h

theorem keep_copy_ok (cfg : Config) :
    ∀ (p : List String) (d : Entry) (cs : List (String × Entry)),
      ¬(d.lookup p).isSome = true →
        ∀ (d2 : Entry), make_parent_dirs d p = .ok d2 →
          ∀ (d3 : Entry), copytree d2 p (.dir cs) = .ok d3 →
            KeepN cfg (.dir cs) p d := by
  intro p d cs hnone d2 hmp d3 hct d' ev h _ q c0 hq hcond
  simp only [merge_node, if_neg hnone] at h
  rw [hmp] at h
  simp only [hct, Except.ok.injEq, Prod.mk.injEq] at h
  obtain ⟨hd, -⟩ := h
  subst hd
  have hp : p ≠ [] := by
    rintro rfl
    simp [Entry.lookup] at hnone
  have hqp : q ≠ p := by
    rintro rfl
    rw [hq] at hnone
    simp at hnone
  by_cases hpq : under p q
  · rcases hpq with ⟨s, rfl⟩
    have hnone' : d.lookup p = none := by
      cases hdp : d.lookup p with
      | none => rfl
      | some v => rw [hdp] at hnone; simp at hnone
    rw [lookup_append, hnone'] at hq
    exact absurd hq (by simp)
  · by_cases hqp2 : under q p
    · rcases make_parent_dirs_elim hmp with ⟨rfl, _⟩ | ⟨hnone2, hmk⟩
      · rcases copytree_elim hct with ⟨_, dm, hmk2, rfl⟩
        rcases makeDirs_chain_dir hmk2 hp q hqp2 _ hq with ⟨cs2, hcs2⟩
        cases hcs2
      · have hq2 : under q p.dropLast := under_dropLast_of_under_ne hqp2 hqp
        have hdne : p.dropLast ≠ [] := by
          intro h0
          rw [h0] at hnone2
          simp [Entry.lookup] at hnone2
        rcases makeDirs_chain_dir hmk hdne q hq2 _ hq with ⟨cs2, hcs2⟩
        cases hcs2
    · rw [copytree_frame hct q hqp2 hpq]
      rw [make_parent_dirs_frame hmp q
        (fun hu => hqp2 (under_of_under_dropLast hu))]
      exact hq

theorem keep_nil (cfg : Config) :
    ∀ (p : List String) (d : Entry), KeepL cfg [] p d := by
  intro p d d' ev h _ q c0 hq _
  simp only [merge_nodes, Except.ok.injEq, Prod.mk.injEq] at h
  obtain ⟨hd, -⟩ := h
  subst hd
  exact hq

theorem keep_child_err (cfg : Config) :
    ∀ (p : List String) (d : Entry) (m : String) (e : Entry)
      (rest : List (String × Entry)) (e1 : Err × Entry),
      merge_node cfg e (p ++ [m]) d = .error e1 →
        KeepN cfg e (p ++ [m]) d → KeepL cfg ((m, e) :: rest) p d := by
  intro p d m e rest e1 hc _ d' ev h
  simp only [merge_nodes, hc] at h
  exact absurd h (by simp)

theorem keep_rest_err (cfg : Config) :
    ∀ (p : List String) (d : Entry) (m : String) (e : Entry)
      (rest : List (String × Entry)) (d2 : Entry) (ev2 : List Event),
      merge_node cfg e (p ++ [m]) d = .ok (d2, ev2) →
        ∀ (e1 : Err × Entry), merge_nodes cfg rest p d2 = .error e1 →
          KeepN cfg e (p ++ [m]) d → KeepL cfg rest p d2 →
            KeepL cfg ((m, e) :: rest) p d := by
  intro p d m e rest d2 ev2 hc e1 hrest _ _ d' ev h
  simp only [merge_nodes, hc, hrest] at h
  exact absurd h (by simp)

theorem keep_cons_ok (cfg : Config) :
    ∀ (p : List String) (d : Entry) (m : String) (e : Entry)
      (rest : List (String × Entry)) (d2 : Entry) (ev2 : List Event),
      merge_node cfg e (p ++ [m]) d = .ok (d2, ev2) →
        ∀ (d3 : Entry) (ev3 : List Event),
          merge_nodes cfg rest p d2 = .ok (d3, ev3) →
            KeepN cfg e (p ++ [m]) d → KeepL cfg rest p d2 →
              KeepL cfg ((m, e) :: rest) p d := by
  intro p d m e rest d2 ev2 hc d3 ev3 hrest ih1 ih2 d' ev h hw q c0 hq hcond
  simp only [merge_nodes, hc, hrest, Except.ok.injEq, Prod.mk.injEq] at h
  obtain ⟨hd, -⟩ := h
  subst hd
  simp only [wfChildren, Bool.and_eq_true] at hw
  have hq2 : d2.lookup q = some (.file c0) := by
    refine ih1 d2 ev2 hc hw.1 q c0 hq ?_
    intro s hs
    have h0 := hcond (m, e) (List.mem_cons_self _ _) s (by
      rw [hs, List.append_assoc]
      rfl)
    exact h0
  refine ih2 d3 ev3 hrest hw.2 q c0 hq2 ?_
  intro nc hmem s hs
  exact hcond nc (List.mem_cons_of_mem _ hmem) s hs

/-- File preservation property of `merge_node`, assembled over the walk. -/
theorem merge_node_keep (cfg : Config) :
    ∀ c p d, KeepN cfg c p d :=
  merge_node.induct cfg (KeepN cfg) (KeepL cfg)
    (keep_file cfg) (keep_other cfg) (keep_walk cfg) (keep_mpd_err cfg)
    (keep_ct_err cfg) (keep_copy_ok cfg) (keep_nil cfg)
    (keep_child_err cfg) (keep_rest_err cfg) (keep_cons_ok cfg)

theorem noOther_file (cfg : Config) :
    ∀ (p : List String) (d : Entry) (content : List Nat),
      OtherN cfg (.file content) p d := by
  intro p d content d' ev _
  rfl

theorem noOther_other (cfg : Config) :
    ∀ (p : List String) (d : Entry), OtherN cfg .other p d := by
  intro p d d' ev h
  simp only [merge_node] at h
  exact absurd h (by simp)

theorem noOther_walk (cfg : Config) :
    ∀ (p : List String) (d : Entry) (cs : List (String × Entry)),
      (d.lookup p).isSome = true → OtherL cfg cs p d →
        OtherN cfg (.dir cs) p d := by
  intro p d cs hsome ih d' ev h
  simp only [merge_node, if_pos hsome] at h
  simpa [Entry.hasOther] using ih d' ev h

theorem noOther_mpd_err (cfg : Config) :
    ∀ (p : List String) (d : Entry) (cs : List (String × Entry)),
      ¬(d.lookup p).isSome = true →
        ∀ (e : Err), make_parent_dirs d p = .error e →
          OtherN cfg (.dir cs) p d := by
  intro p d cs hnone e hmp d' ev h
  simp only [merge_node, if_neg hnone] at h
  rw [hmp] at h
  simp at h

theorem noOther_ct_err (cfg : Config) :
    ∀ (p : List String) (d : Entry) (cs : List (String × Entry)),
      ¬(d.lookup p).isSome = true →
        ∀ (d2 : Entry), make_parent_dirs d p = .ok d2 →
          ∀ (e : Err), copytree d2 p (.dir cs) = .error e →
            OtherN cfg (.dir cs) p d := by
  intro p d cs hnone d2 hmp e hct d' ev h
  simp only [merge_node, if_neg hnone] at h
  rw [hmp] at h
  simp [hct] at h

theorem noOther_copy_ok (cfg : Config) :
    ∀ (p : List String) (d : Entry) (cs : List (String × Entry)),
      ¬(d.lookup p).isSome = true →
        ∀ (d2 : Entry), make_parent_dirs d p = .ok d2 →
          ∀ (d3 : Entry), copytree d2 p (.dir cs) = .ok d3 →
            OtherN cfg (.dir cs) p d := by
  intro p d cs _ d2 _ d3 hct d' ev _
  exact (copytree_elim hct).1

theorem noOther_nil (cfg : Config) :
    ∀ (p : List String) (d : Entry), OtherL cfg [] p d := by
  intro p d d' ev _
  rfl

theorem noOther_child_err (cfg : Config) :
    ∀ (p : List String) (d : Entry) (m : String) (e : Entry)
      (rest : List (String × Entry)) (e1 : Err × Entry),
      merge_node cfg e (p ++ [m]) d = .error e1 →
        OtherN cfg e (p ++ [m]) d → OtherL cfg ((m, e) :: rest) p d := by
  intro p d m e rest e1 hc _ d' ev h
  simp only [merge_nodes, hc] at h
  exact absurd h (by simp)

theorem noOther_rest_err (cfg : Config) :
    ∀ (p : List String) (d : Entry) (m : String) (e : Entry)
      (rest : List (String × Entry)) (d2 : Entry) (ev2 : List Event),
      merge_node cfg e (p ++ [m]) d = .ok (d2, ev2) →
        ∀ (e1 : Err × Entry), merge_nodes cfg rest p d2 = .error e1 →
          OtherN cfg e (p ++ [m]) d → OtherL cfg rest p d2 →
            OtherL cfg ((m, e) :: rest) p d := by
  intro p d m e rest d2 ev2 hc e1 hrest _ _ d' ev h
  simp only [merge_nodes, hc, hrest] at h
  exact absurd h (by simp)

theorem noOther_cons_ok (cfg : Config) :
    ∀ (p : List String) (d : Entry) (m : String) (e : Entry)
      (rest : List (String × Entry)) (d2 : Entry) (ev2 : List Event),
      merge_node cfg e (p ++ [m]) d = .ok (d2, ev2) →
        ∀ (d3 : Entry) (ev3 : List Event),
          merge_nodes cfg rest p d2 = .ok (d3, ev3) →
            OtherN cfg e (p ++ [m]) d → OtherL cfg rest p d2 →
              OtherL cfg ((m, e) :: rest) p d := by
  intro p d m e rest d2 ev2 hc d3 ev3 hrest ih1 ih2 d' ev _
  simp only [childrenHaveOther, Bool.or_eq_false_iff]
  exact ⟨ih1 d2 ev2 hc, ih2 d3 ev3 hrest⟩

/-- A successful `merge_node` never visited an entry of unknown kind. -/
theorem merge_node_noOther (cfg : Config) :
    ∀ c p d, OtherN cfg c p d :=
  merge_node.induct cfg (OtherN cfg) (OtherL cfg)
    (noOther_file cfg) (noOther_other cfg) (noOther_walk cfg)
    (noOther_mpd_err cfg) (noOther_ct_err cfg) (noOther_copy_ok cfg)
    (noOther_nil cfg) (noOther_child_err cfg) (noOther_rest_err cfg)
    (noOther_cons_ok cfg)

/-! ## Well-formedness is inherited along lookups -/

theorem wf_lookup {e : Entry} :
    ∀ {s : List String} {c : Entry}, e.wfNames = true → e.lookup s = some c →
      c.wfNames = true := by
  intro s
  induction s generalizing e with
  | nil =>
    intro c hw hl
    simp only [Entry.lookup, Option.some.injEq] at hl
    subst hl
    exact hw
  | cons n rest ih =>
    intro c hw hl
    match e with
    | .file cc => simp [Entry.lookup] at hl
    | .other => simp [Entry.lookup] at hl
    | .dir cs =>
      simp only [Entry.lookup] at hl
      cases hf : findChild cs n with
      | none => rw [hf] at hl; simp at hl
      | some c1 =>
        rw [hf] at hl
        simp only [Entry.wfNames, Bool.and_eq_true] at hw
        exact ih (wfChildren_mem hw.2 (findChild_mem hf)) hl

theorem hasOther_false_lookup {e : Entry} :
    ∀ {s : List String} {c : Entry}, e.hasOther = false → e.lookup s = some c →
      c.hasOther = false := by
  intro s
  induction s generalizing e with
  | nil =>
    intro c hw hl
    simp only [Entry.lookup, Option.some.injEq] at hl
    subst hl
    exact hw
  | cons n rest ih =>
    intro c hw hl
    match e with
    | .file cc => simp [Entry.lookup] at hl
    | .other => simp [Entry.hasOther] at hw
    | .dir cs =>
      simp only [Entry.lookup] at hl
      cases hf : findChild cs n with
      | none => rw [hf] at hl; simp at hl
      | some c1 =>
        rw [hf] at hl
        simp only [Entry.hasOther] at hw
        exact ih (childrenHaveOther_mem hw (findChild_mem hf)) hl

theorem findChild_none_not_mem {cs : List (String × Entry)} {n : String}
    (h : findChild cs n = none) : ∀ c, (n, c) ∉ cs := by
  induction cs with
  | nil => intro c hc; simp at hc
  | cons hd rest ih =>
    obtain ⟨m, e⟩ := hd
    intro c hc
    by_cases hm : m = n
    · subst hm
      simp [findChild] at h
    · simp only [findChild, if_neg hm] at h
      rcases List.mem_cons.mp hc with heq | hmem
      · injection heq with h1 _
        exact hm h1.symm
      · exact ih h c hmem

/-! ## The synchronisation invariant behind idempotence -/

theorem synced_congr {c : Entry} {f : List String} {d1 d2 : Entry}
    (h : synced c f d1) (heq : ∀ s, d2.lookup (f ++ s) = d1.lookup (f ++ s)) :
    synced c f d2 := by
  intro s
  refine ⟨fun cont hc => ?_, fun cs hc => ?_⟩
  · rw [heq s]
    exact (h s).1 cont hc
  · rw [heq s]
    exact (h s).2 cs hc

theorem sync_file (cfg : Config) :
    ∀ (p : List String) (d : Entry) (content : List Nat),
      SyncN cfg (.file content) p d := by
  intro p d content hm d' ev h _
  simp only [merge_node, merge_file] at h
  split at h
  · split at h
    · exact absurd h (by simp)
    · rename_i d1 hmp
      split at h
      · exact absurd h (by simp)
      · rename_i d2 hcf
        simp only [Except.ok.injEq, Prod.mk.injEq] at h
        obtain ⟨hd, -⟩ := h
        subst hd
        intro s
        constructor
        · intro cont' hcc
          match s with
          | [] =>
            simp only [Entry.lookup, Option.some.injEq, Entry.file.injEq] at hcc
            subst hcc
            simpa using copyfile_ok_lookup hcf
          | x :: s2 => simp [Entry.lookup] at hcc
        · intro cs0 hcc
          match s with
          | [] => simp [Entry.lookup] at hcc
          | x :: s2 => simp [Entry.lookup] at hcc
  · rename_i hcond
    rw [hm] at hcond
    simp at hcond

theorem sync_other (cfg : Config) :
    ∀ (p : List String) (d : Entry), SyncN cfg .other p d := by
  intro p d _ d' ev h
  simp only [merge_node] at h
  exact absurd h (by simp)

theorem sync_walk (cfg : Config) :
    ∀ (p : List String) (d : Entry) (cs : List (String × Entry)),
      (d.lookup p).isSome = true → SyncL cfg cs p d →
        SyncN cfg (.dir cs) p d := by
  intro p d cs hsome ih hm d' ev h hw
  simp only [merge_node, if_pos hsome] at h
  simp only [Entry.wfNames, Bool.and_eq_true] at hw
  have hchild := ih hm d' ev h hw.1 hw.2
  have hnode : merge_node cfg (.dir cs) p d = .ok (d', ev) := by
    simp only [merge_node, if_pos hsome]
    exact h
  have hmono := merge_node_mono cfg (.dir cs) p d d' ev hnode
  intro s
  constructor
  · intro cont hcc
    match s with
    | [] => simp [Entry.lookup] at hcc
    | n :: s2 =>
      simp only [Entry.lookup] at hcc
      cases hf : findChild cs n with
      | none => rw [hf] at hcc; simp at hcc
      | some c1 =>
        rw [hf] at hcc
        have hsy := hchild (n, c1) (findChild_mem hf)
        have h2 := (hsy s2).1 cont hcc
        rw [List.append_assoc] at h2
        simpa using h2
  · intro cs0 hcc
    match s with
    | [] => simpa using hmono p hsome
    | n :: s2 =>
      simp only [Entry.lookup] at hcc
      cases hf : findChild cs n with
      | none => rw [hf] at hcc; simp at hcc
      | some c1 =>
        rw [hf] at hcc
        have hsy := hchild (n, c1) (findChild_mem hf)
        have h2 := (hsy s2).2 cs0 hcc
        rw [List.append_assoc] at h2
        simpa using h2

theorem sync_mpd_err (cfg : Config) :
    ∀ (p : List String) (d : Entry) (cs : List (String × Entry)),
      ¬(d.lookup p).isSome = true →
        ∀ (e : Err), make_parent_dirs d p = .error e →
          SyncN cfg (.dir cs) p d := by
  intro p d cs hnone e hmp _ d' ev h
  simp only [merge_node, if_neg hnone] at h
  rw [hmp] at h
  simp at h

theorem sync_ct_err (cfg : Config) :
    ∀ (p : List String) (d : Entry) (cs : List (String × Entry)),
      ¬(d.lookup p).isSome = true →
        ∀ (d2 : Entry), make_parent_dirs d p = .ok d2 →
          ∀ (e : Err), copytree d2 p (.dir cs) = .error e →
            SyncN cfg (.dir cs) p d := by
  intro p d cs hnone d2 hmp e hct _ d' ev h
  simp only [merge_node, if_neg hnone] at h
  rw [hmp] at h
  simp [hct] at h

theorem sync_copy_ok (cfg : Config) :
    ∀ (p : List String) (d : Entry) (cs : List (String × Entry)),
      ¬(d.lookup p).isSome = true →
        ∀ (d2 : Entry), make_parent_dirs d p = .ok d2 →
          ∀ (d3 : Entry), copytree d2 p (.dir cs) = .ok d3 →
            SyncN cfg (.dir cs) p d := by
  intro p d cs hnone d2 hmp d3 hct _ d' ev h _
  simp only [merge_node, if_neg hnone] at h
  rw [hmp] at h
  simp only [hct, Except.ok.injEq, Prod.mk.injEq] at h
  obtain ⟨hd, -⟩ := h
  subst hd
  intro s
  have hat := copytree_at hct s
  constructor
  · intro cont hcc
    rw [hat]
    exact hcc
  · intro cs0 hcc
    rw [hat, hcc]
    rfl

theorem sync_nil (cfg : Config) :
    ∀ (p : List String) (d : Entry), SyncL cfg [] p d := by
  intro p d _ d' ev _ _ _ nc hmem
  simp at hmem

theorem sync_child_err (cfg : Config) :
    ∀ (p : List String) (d : Entry) (m : String) (e : Entry)
      (rest : List (String × Entry)) (e1 : Err × Entry),
      merge_node cfg e (p ++ [m]) d = .error e1 →
        SyncN cfg e (p ++ [m]) d → SyncL cfg ((m, e) :: rest) p d := by
  intro p d m e rest e1 hc _ _ d' ev h
  simp only [merge_nodes, hc] at h
  exact absurd h (by simp)

theorem sync_rest_err (cfg : Config) :
    ∀ (p : List String) (d : Entry) (m : String) (e : Entry)
      (rest : List (String × Entry)) (d2 : Entry) (ev2 : List Event),
      merge_node cfg e (p ++ [m]) d = .ok (d2, ev2) →
        ∀ (e1 : Err × Entry), merge_nodes cfg rest p d2 = .error e1 →
          SyncN cfg e (p ++ [m]) d → SyncL cfg rest p d2 →
            SyncL cfg ((m, e) :: rest) p d := by
  intro p d m e rest d2 ev2 hc e1 hrest _ _ _ d' ev h
  simp only [merge_nodes, hc, hrest] at h
  exact absurd h (by simp)

theorem sync_cons_ok (cfg : Config) :
    ∀ (p : List String) (d : Entry) (m : String) (e : Entry)
      (rest : List (String × Entry)) (d2 : Entry) (ev2 : List Event),
      merge_node cfg e (p ++ [m]) d = .ok (d2, ev2) →
        ∀ (d3 : Entry) (ev3 : List Event),
          merge_nodes cfg rest p d2 = .ok (d3, ev3) →
            SyncN cfg e (p ++ [m]) d → SyncL cfg rest p d2 →
              SyncL cfg ((m, e) :: rest) p d := by
  intro p d m e rest d2 ev2 hc d3 ev3 hrest ih1 ih2 hm d' ev h hnodup hwc nc hmem
  simp only [merge_nodes, hc, hrest, Except.ok.injEq, Prod.mk.injEq] at h
  obtain ⟨hd, -⟩ := h
  subst hd
  simp only [nodupKeys, Bool.and_eq_true] at hnodup
  simp only [wfChildren, Bool.and_eq_true] at hwc
  rcases List.mem_cons.mp hmem with heq | hmem2
  · subst heq
    have hs2 : synced e (p ++ [m]) d2 := ih1 hm d2 ev2 hc hwc.1
    refine synced_congr hs2 ?_
    intro s
    refine merge_nodes_frame cfg rest p d2 d3 ev3 hrest ((p ++ [m]) ++ s) ?_
    intro nc' hmem'
    have hnone2 : findChild rest m = none :=
      Option.isNone_iff_eq_none.mp hnodup.1
    have hne : nc'.1 ≠ m := by
      intro hh
      apply findChild_none_not_mem hnone2 nc'.2
      rw [← hh]
      simpa using hmem'
    rw [List.append_assoc]
    exact ⟨not_under_sib hne, not_under_sib' hne⟩
  · exact ih2 hm d3 ev3 hrest hnodup.2 hwc.2 nc hmem2

/-- After a successful merge with no merge helper installed, the destination
contains the merged source subtree (assembled over the walk). -/
theorem merge_node_sync (cfg : Config) :
    ∀ c p d, SyncN cfg c p d :=
  merge_node.induct cfg (SyncN cfg) (SyncL cfg)
    (sync_file cfg) (sync_other cfg) (sync_walk cfg) (sync_mpd_err cfg)
    (sync_ct_err cfg) (sync_copy_ok cfg) (sync_nil cfg)
    (sync_child_err cfg) (sync_rest_err cfg) (sync_cons_ok cfg)

theorem stab_file (cfg : Config) :
    ∀ (p : List String) (d : Entry) (content : List Nat),
      StabN cfg (.file content) p d := by
  intro p d content hm _ _ hsy hp
  have hl : d.lookup p = some (.file content) := by
    simpa using (hsy []).1 content rfl
  have hpne : p ≠ [] := hp content rfl
  have hmp : make_parent_dirs d p = .ok d := by
    simp only [make_parent_dirs]
    rw [if_pos]
    exact lookup_some_under (by simp [hl]) (under_dropLast hpne)
  have hcf := copyfile_self hl hpne
  refine ⟨[.copying p], ?_⟩
  simp only [merge_node, merge_file]
  rw [if_pos (show ((d.lookup p).isNone || !cfg.hasMerge) = true by
    rw [hm]; simp)]
  simp only [hmp, hcf]

theorem stab_other (cfg : Config) :
    ∀ (p : List String) (d : Entry), StabN cfg .other p d := by
  intro p d _ _ ho
  simp [Entry.hasOther] at ho

theorem stab_walk (cfg : Config) :
    ∀ (p : List String) (d : Entry) (cs : List (String × Entry)),
      (d.lookup p).isSome = true → StabL cfg cs p d →
        StabN cfg (.dir cs) p d := by
  intro p d cs hsome ih hm hw ho hsy _
  simp only [Entry.wfNames, Bool.and_eq_true] at hw
  simp only [Entry.hasOther] at ho
  have hchild : ∀ nc : String × Entry, nc ∈ cs →
      synced nc.2 (p ++ [nc.1]) d := by
    intro nc hmem
    obtain ⟨n1, c1⟩ := nc
    have hf := findChild_of_mem_nodup hw.1 hmem
    intro s
    constructor
    · intro cont hcc
      have h2 := (hsy (n1 :: s)).1 cont
        (by simp only [Entry.lookup, hf]; exact hcc)
      rw [List.append_assoc]
      simpa using h2
    · intro cs0 hcc
      have h2 := (hsy (n1 :: s)).2 cs0
        (by simp only [Entry.lookup, hf]; exact hcc)
      rw [List.append_assoc]
      simpa using h2
  rcases ih hm hw.1 hw.2 ho hchild with ⟨ev, hev⟩
  refine ⟨ev, ?_⟩
  simp only [merge_node, if_pos hsome]
  exact hev

theorem stab_mpd_err (cfg : Config) :
    ∀ (p : List String) (d : Entry) (cs : List (String × Entry)),
      ¬(d.lookup p).isSome = true →
        ∀ (e : Err), make_parent_dirs d p = .error e →
          StabN cfg (.dir cs) p d := by
  intro p d cs hnone e _ _ _ _ hsy _
  exact absurd (by simpa using (hsy []).2 cs rfl) hnone

theorem stab_ct_err (cfg : Config) :
    ∀ (p : List String) (d : Entry) (cs : List (String × Entry)),
      ¬(d.lookup p).isSome = true →
        ∀ (d2 : Entry), make_parent_dirs d p = .ok d2 →
          ∀ (e : Err), copytree d2 p (.dir cs) = .error e →
            StabN cfg (.dir cs) p d := by
  intro p d cs hnone d2 _ e _ _ _ _ hsy _
  exact absurd (by simpa using (hsy []).2 cs rfl) hnone

theorem stab_copy_ok (cfg : Config) :
    ∀ (p : List String) (d : Entry) (cs : List (String × Entry)),
      ¬(d.lookup p).isSome = true →
        ∀ (d2 : Entry), make_parent_dirs d p = .ok d2 →
          ∀ (d3 : Entry), copytree d2 p (.dir cs) = .ok d3 →
            StabN cfg (.dir cs) p d := by
  intro p d cs hnone d2 _ d3 _ _ _ _ hsy _
  exact absurd (by simpa using (hsy []).2 cs rfl) hnone

theorem stab_nil (cfg : Config) :
    ∀ (p : List String) (d : Entry), StabL cfg [] p d := by
  intro p d _ _ _ _ _
  refine ⟨[], ?_⟩
  simp [merge_nodes]

theorem stab_child_err (cfg : Config) :
    ∀ (p : List String) (d : Entry) (m : String) (e : Entry)
      (rest : List (String × Entry)) (e1 : Err × Entry),
      merge_node cfg e (p ++ [m]) d = .error e1 →
        StabN cfg e (p ++ [m]) d → StabL cfg ((m, e) :: rest) p d := by
  intro p d m e rest e1 hc ih1 hm hnodup hwc ho hsy
  simp only [wfChildren, Bool.and_eq_true] at hwc
  simp only [childrenHaveOther, Bool.or_eq_false_iff] at ho
  rcases ih1 hm hwc.1 ho.1 (hsy (m, e) (List.mem_cons_self _ _))
    (fun cont _ => by simp) with ⟨ev1, hok⟩
  exact absurd (hok.symm.trans hc) (by simp)

theorem stab_rest_err (cfg : Config) :
    ∀ (p : List String) (d : Entry) (m : String) (e : Entry)
      (rest : List (String × Entry)) (d2 : Entry) (ev2 : List Event),
      merge_node cfg e (p ++ [m]) d = .ok (d2, ev2) →
        ∀ (e1 : Err × Entry), merge_nodes cfg rest p d2 = .error e1 →
          StabN cfg e (p ++ [m]) d → StabL cfg rest p d2 →
            StabL cfg ((m, e) :: rest) p d := by
  intro p d m e rest d2 ev2 hc e1 hrest ih1 ih2 hm hnodup hwc ho hsy
  simp only [nodupKeys, Bool.and_eq_true] at hnodup
  simp only [wfChildren, Bool.and_eq_true] at hwc
  simp only [childrenHaveOther, Bool.or_eq_false_iff] at ho
  rcases ih1 hm hwc.1 ho.1 (hsy (m, e) (List.mem_cons_self _ _))
    (fun cont _ => by simp) with ⟨ev1, hok⟩
  have hd2 : d2 = d := by
    have h0 := hok.symm.trans hc
    simp only [Except.ok.injEq, Prod.mk.injEq] at h0
    exact h0.1.symm
  subst hd2
  rcases ih2 hm hnodup.2 hwc.2 ho.2
    (fun nc hmem => hsy nc (List.mem_cons_of_mem _ hmem)) with ⟨evr, hokr⟩
  exact absurd (hokr.symm.trans hrest) (by simp)

theorem stab_cons_ok (cfg : Config) :
    ∀ (p : List String) (d : Entry) (m : String) (e : Entry)
      (rest : List (String × Entry)) (d2 : Entry) (ev2 : List Event),
      merge_node cfg e (p ++ [m]) d = .ok (d2, ev2) →
        ∀ (d3 : Entry) (ev3 : List Event),
          merge_nodes cfg rest p d2 = .ok (d3, ev3) →
            StabN cfg e (p ++ [m]) d → StabL cfg rest p d2 →
              StabL cfg ((m, e) :: rest) p d := by
  intro p d m e rest d2 ev2 hc d3 ev3 hrest ih1 ih2 hm hnodup hwc ho hsy
  simp only [nodupKeys, Bool.and_eq_true] at hnodup
  simp only [wfChildren, Bool.and_eq_true] at hwc
  simp only [childrenHaveOther, Bool.or_eq_false_iff] at ho
  rcases ih1 hm hwc.1 ho.1 (hsy (m, e) (List.mem_cons_self _ _))
    (fun cont _ => by simp) with ⟨ev1, hok⟩
  have hd2 : d2 = d := by
    have h0 := hok.symm.trans hc
    simp only [Except.ok.injEq, Prod.mk.injEq] at h0
    exact h0.1.symm
  subst hd2
  rcases ih2 hm hnodup.2 hwc.2 ho.2
    (fun nc hmem => hsy nc (List.mem_cons_of_mem _ hmem)) with ⟨evr, hokr⟩
  have hd3 : d3 = d2 := by
    have h0 := hokr.symm.trans hrest
    simp only [Except.ok.injEq, Prod.mk.injEq] at h0
    exact h0.1.symm
  rw [hd3] at hrest
  refine ⟨ev2 ++ ev3, ?_⟩
  simp [merge_nodes, hc, hrest]

/-- Merging into an already synced destination with no merge helper installed
is the identity on the destination tree (assembled over the walk). -/
theorem merge_node_stab (cfg : Config) :
    ∀ c p d, StabN cfg c p d :=
  merge_node.induct cfg (StabN cfg) (StabL cfg)
    (stab_file cfg) (stab_other cfg) (stab_walk cfg) (stab_mpd_err cfg)
    (stab_ct_err cfg) (stab_copy_ok cfg) (stab_nil cfg)
    (stab_child_err cfg) (stab_rest_err cfg) (stab_cons_ok cfg)

theorem write_file (cfg : Config) :
    ∀ (p : List String) (d : Entry) (content : List Nat),
      WriteN cfg (.file content) p d := by
  intro p d content hm d' ev h _ r
  simp only [merge_node, merge_file] at h
  split at h
  · split at h
    · exact absurd h (by simp)
    · rename_i d1 hmp
      split at h
      · exact absurd h (by simp)
      · rename_i d2 hcf
        simp only [Except.ok.injEq, Prod.mk.injEq] at h
        obtain ⟨hd, -⟩ := h
        subst hd
        have hp : p ≠ [] := copyfile_ok_ne_nil hcf
        rcases copyfile_cases hcf r with h1 | ⟨rfl, h2⟩ | ⟨hu, hne, cs0, h3⟩
        · rcases make_parent_dirs_cases hmp r with h4 | ⟨hu4, cs0, h5⟩
          · exact .inl (h1.trans h4)
          · refine .inr (.inr ⟨under_of_under_dropLast hu4, ?_, cs0,
              h1.trans h5⟩)
            rintro rfl
            exact not_under_dropLast_self hp hu4
        · exact .inr (.inl ⟨[], by simp, .inl ⟨content, rfl, h2⟩⟩)
        · exact .inr (.inr ⟨hu, hne, cs0, h3⟩)
  · rename_i hcond
    rw [hm] at hcond
    simp at hcond

theorem write_other (cfg : Config) :
    ∀ (p : List String) (d : Entry), WriteN cfg .other p d := by
  intro p d _ d' ev h
  simp only [merge_node] at h
  exact absurd h (by simp)

theorem write_walk (cfg : Config) :
    ∀ (p : List String) (d : Entry) (cs : List (String × Entry)),
      (d.lookup p).isSome = true → WriteL cfg cs p d →
        WriteN cfg (.dir cs) p d := by
  intro p d cs hsome ih hm d' ev h hw r
  simp only [merge_node, if_pos hsome] at h
  simp only [Entry.wfNames, Bool.and_eq_true] at hw
  rcases ih hm d' ev h hw.1 hw.2 r
    with h1 | ⟨nc, hmem, s, rfl, hval⟩ | ⟨hu, cs0, h3⟩
  · exact .inl h1
  · refine .inr (.inl ⟨nc.1 :: s, rfl, ?_⟩)
    have hf := findChild_of_mem_nodup hw.1
      (show (nc.1, nc.2) ∈ cs by simpa using hmem)
    rcases hval with ⟨cont, hv1, hv2⟩ | ⟨cs1, hv1, hv2⟩
    · exact .inl ⟨cont, by simp only [Entry.lookup, hf]; exact hv1, hv2⟩
    · exact .inr ⟨cs1, by simp only [Entry.lookup, hf]; exact hv1, hv2⟩
  · by_cases hr : r = p
    · subst hr
      exact .inr (.inl ⟨[], by simp, .inr ⟨cs, rfl, by simp [h3]⟩⟩)
    · exact .inr (.inr ⟨hu, hr, cs0, h3⟩)

theorem write_mpd_err (cfg : Config) :
    ∀ (p : List String) (d : Entry) (cs : List (String × Entry)),
      ¬(d.lookup p).isSome = true →
        ∀ (e : Err), make_parent_dirs d p = .error e →
          WriteN cfg (.dir cs) p d := by
  intro p d cs hnone e hmp _ d' ev h
  simp only [merge_node, if_neg hnone] at h
  rw [hmp] at h
  simp at h

theorem write_ct_err (cfg : Config) :
    ∀ (p : List String) (d : Entry) (cs : List (String × Entry)),
      ¬(d.lookup p).isSome = true →
        ∀ (d2 : Entry), make_parent_dirs d p = .ok d2 →
          ∀ (e : Err), copytree d2 p (.dir cs) = .error e →
            WriteN cfg (.dir cs) p d := by
  intro p d cs hnone d2 hmp e hct _ d' ev h
  simp only [merge_node, if_neg hnone] at h
  rw [hmp] at h
  simp [hct] at h

theorem write_copy_ok (cfg : Config) :
    ∀ (p : List String) (d : Entry) (cs : List (String × Entry)),
      ¬(d.lookup p).isSome = true →
        ∀ (d2 : Entry), make_parent_dirs d p = .ok d2 →
          ∀ (d3 : Entry), copytree d2 p (.dir cs) = .ok d3 →
            WriteN cfg (.dir cs) p d := by
  intro p d cs hnone d2 hmp d3 hct hm d' ev h _ r
  simp only [merge_node, if_neg hnone] at h
  rw [hmp] at h
  simp only [hct, Except.ok.injEq, Prod.mk.injEq] at h
  obtain ⟨hd, -⟩ := h
  subst hd
  have hp : p ≠ [] := by
    rintro rfl
    simp [Entry.lookup] at hnone
  have hnone' : d.lookup p = none := by
    cases hdp : d.lookup p with
    | none => rfl
    | some v => rw [hdp] at hnone; simp at hnone
  have hother : Entry.hasOther (.dir cs) = false := (copytree_elim hct).1
  rcases copytree_cases hct r with h1 | ⟨s, rfl, h2⟩ | ⟨hu, hne, cs0, h3⟩
  · rcases make_parent_dirs_cases hmp r with h4 | ⟨hu4, cs0, h5⟩
    · exact .inl (h1.trans h4)
    · refine .inr (.inr ⟨under_of_under_dropLast hu4, ?_, cs0, h1.trans h5⟩)
      rintro rfl
      exact not_under_dropLast_self hp hu4
  · cases hsv : Entry.lookup (.dir cs) s with
    | none =>
      refine .inl ?_
      rw [h2, hsv, lookup_append, hnone']
      rfl
    | some v =>
      match v with
      | .file cont =>
        exact .inr (.inl ⟨s, rfl, .inl ⟨cont, hsv, by rw [h2, hsv]⟩⟩)
      | .dir cs1 =>
        exact .inr (.inl ⟨s, rfl, .inr ⟨cs1, hsv, by rw [h2, hsv]; rfl⟩⟩)
      | .other => exact absurd hsv (hasOther_lookup hother s)
  · exact .inr (.inr ⟨hu, hne, cs0, h3⟩)

theorem write_nil (cfg : Config) :
    ∀ (p : List String) (d : Entry), WriteL cfg [] p d := by
  intro p d _ d' ev h _ _ r
  simp only [merge_nodes, Except.ok.injEq, Prod.mk.injEq] at h
  obtain ⟨hd, -⟩ := h
  subst hd
  exact .inl rfl

theorem write_child_err (cfg : Config) :
    ∀ (p : List String) (d : Entry) (m : String) (e : Entry)
      (rest : List (String × Entry)) (e1 : Err × Entry),
      merge_node cfg e (p ++ [m]) d = .error e1 →
        WriteN cfg e (p ++ [m]) d → WriteL cfg ((m, e) :: rest) p d := by
  intro p d m e rest e1 hc _ _ d' ev h
  simp only [merge_nodes, hc] at h
  exact absurd h (by simp)

theorem write_rest_err (cfg : Config) :
    ∀ (p : List String) (d : Entry) (m : String) (e : Entry)
      (rest : List (String × Entry)) (d2 : Entry) (ev2 : List Event),
      merge_node cfg e (p ++ [m]) d = .ok (d2, ev2) →
        ∀ (e1 : Err × Entry), merge_nodes cfg rest p d2 = .error e1 →
          WriteN cfg e (p ++ [m]) d → WriteL cfg rest p d2 →
            WriteL cfg ((m, e) :: rest) p d := by
  intro p d m e rest d2 ev2 hc e1 hrest _ _ _ d' ev h
  simp only [merge_nodes, hc, hrest] at h
  exact absurd h (by simp)

theorem write_cons_ok (cfg : Config) :
    ∀ (p : List String) (d : Entry) (m : String) (e : Entry)
      (rest : List (String × Entry)) (d2 : Entry) (ev2 : List Event),
      merge_node cfg e (p ++ [m]) d = .ok (d2, ev2) →
        ∀ (d3 : Entry) (ev3 : List Event),
          merge_nodes cfg rest p d2 = .ok (d3, ev3) →
            WriteN cfg e (p ++ [m]) d → WriteL cfg rest p d2 →
              WriteL cfg ((m, e) :: rest) p d := by
  intro p d m e rest d2 ev2 hc d3 ev3 hrest ih1 ih2 hm d' ev h hnodup hwc r
  simp only [merge_nodes, hc, hrest, Except.ok.injEq, Prod.mk.injEq] at h
  obtain ⟨hd, -⟩ := h
  subst hd
  simp only [nodupKeys, Bool.and_eq_true] at hnodup
  simp only [wfChildren, Bool.and_eq_true] at hwc
  rcases ih2 hm d3 ev3 hrest hnodup.2 hwc.2 r
    with h1 | ⟨nc, hmem, s, rfl, hval⟩ | ⟨hu, cs0, h3⟩
  · rcases ih1 hm d2 ev2 hc hwc.1 r
      with h4 | ⟨s, rfl, hval⟩ | ⟨hu, hne, cs0, h5⟩
    · exact .inl (h1.trans h4)
    · refine .inr (.inl ⟨(m, e), List.mem_cons_self _ _, s,
        by rw [List.append_assoc]; rfl, ?_⟩)
      rcases hval with ⟨cont, hv1, hv2⟩ | ⟨cs1, hv1, hv2⟩
      · exact .inl ⟨cont, hv1, h1.trans hv2⟩
      · exact .inr ⟨cs1, hv1, by rw [h1]; exact hv2⟩
    · rcases under_snoc_iff.mp hu with hu2 | rfl
      · exact .inr (.inr ⟨hu2, cs0, h1.trans h5⟩)
      · exact absurd rfl hne
  · exact .inr (.inl ⟨nc, List.mem_cons_of_mem _ hmem, s, rfl, hval⟩)
  · exact .inr (.inr ⟨hu, cs0, h3⟩)

/-- Write characterisation of `merge_node` (assembled over the walk). -/
theorem merge_node_write (cfg : Config) :
    ∀ c p d, WriteN cfg c p d :=
  merge_node.induct cfg (WriteN cfg) (WriteL cfg)
    (write_file cfg) (write_other cfg) (write_walk cfg) (write_mpd_err cfg)
    (write_ct_err cfg) (write_copy_ok cfg) (write_nil cfg)
    (write_child_err cfg) (write_rest_err cfg) (write_cons_ok cfg)

/-- Merging one source path never breaks the synchronisation of another
source path with the destination: both are the same source tree, so any write
puts the very bytes the other path is synced to. -/
theorem synced_preserve (cfg : Config) {c e : Entry} {f g : List String}
    {d d2 : Entry} {ev : List Event}
    (hm : cfg.hasMerge = false)
    (hw : cfg.thisDir.wfNames = true)
    (hc : cfg.thisDir.lookup f = some c) (he : cfg.thisDir.lookup g = some e)
    (hs : synced c f d) (h : merge_node cfg e g d = .ok (d2, ev)) :
    synced c f d2 := by
  have hwe : e.wfNames = true := wf_lookup hw he
  intro s
  constructor
  · intro cont hcs
    have hd := (hs s).1 cont hcs
    have habs : cfg.thisDir.lookup (f ++ s) = some (.file cont) := by
      rw [lookup_append, hc]
      simpa using hcs
    rcases merge_node_write cfg e g d hm d2 ev h hwe (f ++ s)
      with h1 | ⟨s', heq, hval⟩ | ⟨hu, hne, cs0, h3⟩
    · rw [h1]; exact hd
    · rcases hval with ⟨cont', hv1, hv2⟩ | ⟨cs1, hv1, hv2⟩
      · have h2 : cfg.thisDir.lookup (f ++ s) = some (.file cont') := by
          rw [heq, lookup_append, he]
          simpa using hv1
        rw [habs] at h2
        injection h2 with h2
        injection h2 with h2
        rw [h2]
        exact hv2
      · have h2 : cfg.thisDir.lookup (f ++ s) = some (.dir cs1) := by
          rw [heq, lookup_append, he]
          simpa using hv1
        rw [habs] at h2
        exact absurd h2 (by simp)
    · have hsome : (cfg.thisDir.lookup g).isSome = true := by simp [he]
      rcases lookup_strict_under_dir hsome hu hne with ⟨cs1, hcs1⟩
      rw [habs] at hcs1
      exact absurd hcs1 (by simp)
  · intro cs0 hcs
    exact merge_node_mono cfg e g d d2 ev h (f ++ s) ((hs s).2 cs0 hcs)

/-! ## Plugin-level assembly -/

/-- A declared path that does not exist under the source root stops
`merge_plugin` at once with the `RuntimeError` naming it. -/
theorem mpf_missing (cfg : Config) {f : List String}
    (hmiss : cfg.thisDir.lookup f = none) (post : List (List String))
    (d : Entry) :
    merge_plugin_files cfg (f :: post) d =
      .error (.runtimeError ("dwa_usd_plugins file " ++
        joinPath cfg.thisDirStr f ++ " does not exist"), d) := by
  simp [merge_plugin_files, hmiss]

/-- Processing a list of declared paths that ends in an error after a
successful first part: the whole run mirrors the error, with the state left
by the successful part. -/
theorem mpf_append_error (cfg : Config) :
    ∀ (as : List (List String)) {d d1 : Entry} {ev1 : List Event}
      {e : Err × Entry} (bs : List (List String)),
      merge_plugin_files cfg as d = .ok (d1, ev1) →
      merge_plugin_files cfg bs d1 = .error e →
      merge_plugin_files cfg (as ++ bs) d = .error e := by
  intro as
  induction as with
  | nil =>
    intro d d1 ev1 e bs h1 h2
    simp only [merge_plugin_files, Except.ok.injEq, Prod.mk.injEq] at h1
    obtain ⟨h1a, -⟩ := h1
    subst h1a
    simpa using h2
  | cons f as' ih =>
    intro d d1 ev1 e bs h1 h2
    simp only [merge_plugin_files] at h1
    simp only [List.cons_append, merge_plugin_files]
    cases hl : cfg.thisDir.lookup f with
    | none => simp [hl] at h1
    | some c =>
      simp only [hl] at h1
      match c with
      | .other => simp at h1
      | .file cont =>
        cases hn : merge_node cfg (.file cont) f d with
        | error e1 => simp [hn] at h1
        | ok x =>
          obtain ⟨dm, evm⟩ := x
          simp only [hn] at h1
          cases hr : merge_plugin_files cfg as' dm with
          | error e1 => simp [hr] at h1
          | ok y =>
            obtain ⟨dr, evr⟩ := y
            simp only [hr] at h1
            simp only [Except.ok.injEq, Prod.mk.injEq] at h1
            obtain ⟨h1a, -⟩ := h1
            subst h1a
            simp [hn, ih bs hr h2]
      | .dir cs =>
        cases hn : merge_node cfg (.dir cs) f d with
        | error e1 => simp [hn] at h1
        | ok x =>
          obtain ⟨dm, evm⟩ := x
          simp only [hn] at h1
          cases hr : merge_plugin_files cfg as' dm with
          | error e1 => simp [hr] at h1
          | ok y =>
            obtain ⟨dr, evr⟩ := y
            simp only [hr] at h1
            simp only [Except.ok.injEq, Prod.mk.injEq] at h1
            obtain ⟨h1a, -⟩ := h1
            subst h1a
            simp [hn, ih bs hr h2]

/-- Merging a file at the empty relative path fails when no helper is
installed: `shutil.copyfile` cannot write over the destination root. -/
theorem merge_node_file_nil (cfg : Config) (hm : cfg.hasMerge = false)
    (cont : List Nat) (d : Entry) {x : Entry × List Event} :
    merge_node cfg (.file cont) [] d ≠ .ok x := by
  intro hx
  simp only [merge_node, merge_file] at hx
  rw [if_pos (by rw [hm]; simp)] at hx
  rw [show make_parent_dirs d [] = .ok d from by
    simp [make_parent_dirs, Entry.lookup]] at hx
  simp [copyfile] at hx

/-- A synced source path stays synced while the remaining declared paths are
merged. -/
theorem synced_preserve_files (cfg : Config) (hm : cfg.hasMerge = false)
    (hw : cfg.thisDir.wfNames = true) {c : Entry} {f : List String}
    (hc : cfg.thisDir.lookup f = some c) :
    ∀ (gs : List (List String)) {d d1 : Entry} {ev : List Event},
      merge_plugin_files cfg gs d = .ok (d1, ev) →
      synced c f d → synced c f d1 := by
  intro gs
  induction gs with
  | nil =>
    intro d d1 ev h hs
    simp only [merge_plugin_files, Except.ok.injEq, Prod.mk.injEq] at h
    obtain ⟨h1a, -⟩ := h
    subst h1a
    exact hs
  | cons g gs' ih =>
    intro d d1 ev h hs
    simp only [merge_plugin_files] at h
    cases hl : cfg.thisDir.lookup g with
    | none => simp [hl] at h
    | some c2 =>
      simp only [hl] at h
      match c2 with
      | .other => simp at h
      | .file cont =>
        cases hn : merge_node cfg (.file cont) g d with
        | error e1 => simp [hn] at h
        | ok x =>
          obtain ⟨dm, evm⟩ := x
          simp only [hn] at h
          cases hr : merge_plugin_files cfg gs' dm with
          | error e1 => simp [hr] at h
          | ok y =>
            obtain ⟨dr, evr⟩ := y
            simp only [hr] at h
            simp only [Except.ok.injEq, Prod.mk.injEq] at h
            obtain ⟨h1a, -⟩ := h
            subst h1a
            exact ih hr (synced_preserve cfg hm hw hc hl hs hn)
      | .dir cs =>
        cases hn : merge_node cfg (.dir cs) g d with
        | error e1 => simp [hn] at h
        | ok x =>
          obtain ⟨dm, evm⟩ := x
          simp only [hn] at h
          cases hr : merge_plugin_files cfg gs' dm with
          | error e1 => simp [hr] at h
          | ok y =>
            obtain ⟨dr, evr⟩ := y
            simp only [hr] at h
            simp only [Except.ok.injEq, Prod.mk.injEq] at h
            obtain ⟨h1a, -⟩ := h
            subst h1a
            exact ih hr (synced_preserve cfg hm hw hc hl hs hn)

/-- After a successful run with no merge helper, every declared path is
synced in the final destination. -/
theorem run_syncAll (cfg : Config) (hm : cfg.hasMerge = false)
    (hw : cfg.thisDir.wfNames = true) :
    ∀ (files : List (List String)) {d d1 : Entry} {ev : List Event},
      merge_plugin_files cfg files d = .ok (d1, ev) →
      SyncAll cfg files d1 := by
  intro files
  induction files with
  | nil =>
    intro d d1 ev _ f hf
    simp at hf
  | cons f fs ih =>
    intro d d1 ev h g hg
    simp only [merge_plugin_files] at h
    cases hl : cfg.thisDir.lookup f with
    | none => simp [hl] at h
    | some c =>
      simp only [hl] at h
      match c with
      | .other => simp at h
      | .file cont =>
        cases hn : merge_node cfg (.file cont) f d with
        | error e1 => simp [hn] at h
        | ok x =>
          obtain ⟨dm, evm⟩ := x
          simp only [hn] at h
          cases hr : merge_plugin_files cfg fs dm with
          | error e1 => simp [hr] at h
          | ok y =>
            obtain ⟨dr, evr⟩ := y
            simp only [hr] at h
            simp only [Except.ok.injEq, Prod.mk.injEq] at h
            obtain ⟨h1a, -⟩ := h
            subst h1a
            rcases List.mem_cons.mp hg with rfl | hg2
            · refine ⟨.file cont, hl, ?_, rfl, ?_⟩
              · have hsy : synced (.file cont) g dm :=
                  merge_node_sync cfg (.file cont) g d hm dm evm hn rfl
                exact synced_preserve_files cfg hm hw hl fs hr hsy
              · intro cont' _ hgnil
                subst hgnil
                exact merge_node_file_nil cfg hm cont d hn
            · exact ih hr g hg2
      | .dir cs =>
        cases hn : merge_node cfg (.dir cs) f d with
        | error e1 => simp [hn] at h
        | ok x =>
          obtain ⟨dm, evm⟩ := x
          simp only [hn] at h
          cases hr : merge_plugin_files cfg fs dm with
          | error e1 => simp [hr] at h
          | ok y =>
            obtain ⟨dr, evr⟩ := y
            simp only [hr] at h
            simp only [Except.ok.injEq, Prod.mk.injEq] at h
            obtain ⟨h1a, -⟩ := h
            subst h1a
            rcases List.mem_cons.mp hg with rfl | hg2
            · refine ⟨.dir cs, hl, ?_, ?_, ?_⟩
              · have hsy : synced (.dir cs) g dm :=
                  merge_node_sync cfg (.dir cs) g d hm dm evm hn
                    (wf_lookup hw hl)
                exact synced_preserve_files cfg hm hw hl fs hr hsy
              · exact merge_node_noOther cfg (.dir cs) g d dm evm hn
              · intro cont hcc
                exact absurd hcc (by simp)
            · exact ih hr g hg2

/-- On a destination where every declared path is already synced, the whole
run with no merge helper is the identity on the destination. -/
theorem syncAll_stable (cfg : Config) (hm : cfg.hasMerge = false)
    (hw : cfg.thisDir.wfNames = true) :
    ∀ (files : List (List String)) (d : Entry), SyncAll cfg files d →
      ∃ ev, merge_plugin_files cfg files d = .ok (d, ev) := by
  intro files
  induction files with
  | nil =>
    intro d _
    exact ⟨[], by simp [merge_plugin_files]⟩
  | cons f fs ih =>
    intro d hall
    rcases hall f (List.mem_cons_self _ _) with ⟨e, hl, hsy, hoth, hnil⟩
    have hwe : e.wfNames = true := wf_lookup hw hl
    rcases merge_node_stab cfg e f d hm hwe hoth hsy hnil with ⟨ev1, h1⟩
    rcases ih d (fun g hg => hall g (List.mem_cons_of_mem _ hg)) with ⟨ev2, h2⟩
    refine ⟨ev1 ++ ev2, ?_⟩
    simp only [merge_plugin_files]
    rw [hl]
    match e with
    | .file cont => simp [h1, h2]
    | .dir cs => simp [h1, h2]
    | .other => simp [Entry.hasOther] at hoth

/-- The whole declared-path run keeps every existing destination entry. -/
theorem mpf_mono (cfg : Config) :
    ∀ (files : List (List String)) {d d1 : Entry} {ev : List Event},
      merge_plugin_files cfg files d = .ok (d1, ev) →
      ∀ r, (d.lookup r).isSome = true → (d1.lookup r).isSome = true := by
  intro files
  induction files with
  | nil =>
    intro d d1 ev h r hs
    simp only [merge_plugin_files, Except.ok.injEq, Prod.mk.injEq] at h
    obtain ⟨h1a, -⟩ := h
    subst h1a
    exact hs
  | cons f fs ih =>
    intro d d1 ev h r hs
    simp only [merge_plugin_files] at h
    cases hl : cfg.thisDir.lookup f with
    | none => simp [hl] at h
    | some c =>
      simp only [hl] at h
      match c with
      | .other => simp at h
      | .file cont =>
        cases hn : merge_node cfg (.file cont) f d with
        | error e1 => simp [hn] at h
        | ok x =>
          obtain ⟨dm, evm⟩ := x
          simp only [hn] at h
          cases hr : merge_plugin_files cfg fs dm with
          | error e1 => simp [hr] at h
          | ok y =>
            obtain ⟨dr, evr⟩ := y
            simp only [hr] at h
            simp only [Except.ok.injEq, Prod.mk.injEq] at h
            obtain ⟨h1a, -⟩ := h
            subst h1a
            exact ih hr r (merge_node_mono cfg (.file cont) f d dm evm hn r hs)
      | .dir cs =>
        cases hn : merge_node cfg (.dir cs) f d with
        | error e1 => simp [hn] at h
        | ok x =>
          obtain ⟨dm, evm⟩ := x
          simp only [hn] at h
          cases hr : merge_plugin_files cfg fs dm with
          | error e1 => simp [hr] at h
          | ok y =>
            obtain ⟨dr, evr⟩ := y
            simp only [hr] at h
            simp only [Except.ok.injEq, Prod.mk.injEq] at h
            obtain ⟨h1a, -⟩ := h
            subst h1a
            exact ih hr r (merge_node_mono cfg (.dir cs) f d dm evm hn r hs)

/-- The whole declared-path run keeps the bytes of every destination file
whose relative path has no counterpart under the source root. -/
theorem mpf_keep (cfg : Config) (hw : cfg.thisDir.wfNames = true) :
    ∀ (files : List (List String)) {d d1 : Entry} {ev : List Event},
      merge_plugin_files cfg files d = .ok (d1, ev) →
      ∀ q c0, d.lookup q = some (.file c0) → cfg.thisDir.lookup q = none →
        d1.lookup q = some (.file c0) := by
  intro files
  induction files with
  | nil =>
    intro d d1 ev h q c0 hq _
    simp only [merge_plugin_files, Except.ok.injEq, Prod.mk.injEq] at h
    obtain ⟨h1a, -⟩ := h
    subst h1a
    exact hq
  | cons f fs ih =>
    intro d d1 ev h q c0 hq hsrc
    simp only [merge_plugin_files] at h
    cases hl : cfg.thisDir.lookup f with
    | none => simp [hl] at h
    | some c =>
      simp only [hl] at h
      have hcond : ∀ s, q = f ++ s → c.lookup s = none := by
        intro s hqs
        have h0 : cfg.thisDir.lookup (f ++ s) = none := hqs ▸ hsrc
        rw [lookup_append, hl] at h0
        simpa using h0
      have hwc : c.wfNames = true := wf_lookup hw hl
      match c with
      | .other => simp at h
      | .file cont =>
        cases hn : merge_node cfg (.file cont) f d with
        | error e1 => simp [hn] at h
        | ok x =>
          obtain ⟨dm, evm⟩ := x
          simp only [hn] at h
          cases hr : merge_plugin_files cfg fs dm with
          | error e1 => simp [hr] at h
          | ok y =>
            obtain ⟨dr, evr⟩ := y
            simp only [hr] at h
            simp only [Except.ok.injEq, Prod.mk.injEq] at h
            obtain ⟨h1a, -⟩ := h
            subst h1a
            exact ih hr q c0
              (merge_node_keep cfg (.file cont) f d dm evm hn hwc q c0 hq hcond)
              hsrc
      | .dir cs =>
        cases hn : merge_node cfg (.dir cs) f d with
        | error e1 => simp [hn] at h
        | ok x =>
          obtain ⟨dm, evm⟩ := x
          simp only [hn] at h
          cases hr : merge_plugin_files cfg fs dm with
          | error e1 => simp [hr] at h
          | ok y =>
            obtain ⟨dr, evr⟩ := y
            simp only [hr] at h
            simp only [Except.ok.injEq, Prod.mk.injEq] at h
            obtain ⟨h1a, -⟩ := h
            subst h1a
            exact ih hr q c0
              (merge_node_keep cfg (.dir cs) f d dm evm hn hwc q c0 hq hcond)
              hsrc

/-! ## Remaining helper lemmas for the claims -/

theorem string_append_ne {s t1 t2 : String} (h : t1 ≠ t2) :
    s ++ t1 ≠ s ++ t2 := by
  intro hh
  apply h
  have h2 := congrArg String.data hh
  rw [String.data_append, String.data_append] at h2
  exact String.ext (List.append_cancel_left h2)

theorem copyfile_ok_of_file {q : List String} :
    ∀ {d : Entry} {old : List Nat} (cont : List Nat),
      d.lookup q = some (.file old) → q ≠ [] →
      ∃ d', copyfile d q cont = .ok d' := by
  induction q with
  | nil => intro d old cont _ hq; exact absurd rfl hq
  | cons n r2 ih =>
    intro d old cont hl _
    match d with
    | .file c => simp [Entry.lookup] at hl
    | .other => simp [Entry.lookup] at hl
    | .dir cs =>
      simp only [Entry.lookup] at hl
      cases hf : findChild cs n with
      | none => rw [hf] at hl; simp at hl
      | some c =>
        rw [hf] at hl
        match r2 with
        | [] =>
          simp only [Entry.lookup, Option.some.injEq] at hl
          subst hl
          exact ⟨.dir (setChild cs n (.file cont)), by simp [copyfile, hf]⟩
        | x :: r3 =>
          rcases ih cont hl (by simp) with ⟨c', hc'⟩
          exact ⟨.dir (setChild cs n c'), by simp [copyfile, hf, hc']⟩

theorem merge_nodes_append_error (cfg : Config) :
    ∀ (as : List (String × Entry)) {p : List String} {d d1 : Entry}
      {ev1 : List Event} {e : Err × Entry} (bs : List (String × Entry)),
      merge_nodes cfg as p d = .ok (d1, ev1) →
      merge_nodes cfg bs p d1 = .error e →
      merge_nodes cfg (as ++ bs) p d = .error e := by
  intro as
  induction as with
  | nil =>
    intro p d d1 ev1 e bs h1 h2
    simp only [merge_nodes, Except.ok.injEq, Prod.mk.injEq] at h1
    obtain ⟨h1a, -⟩ := h1
    subst h1a
    simpa using h2
  | cons nc as' ih =>
    intro p d d1 ev1 e bs h1 h2
    obtain ⟨m, c⟩ := nc
    simp only [merge_nodes] at h1
    simp only [List.cons_append, merge_nodes]
    cases hn : merge_node cfg c (p ++ [m]) d with
    | error e1 => simp [hn] at h1
    | ok x =>
      obtain ⟨dm, evm⟩ := x
      simp only [hn] at h1 ⊢
      cases hr : merge_nodes cfg as' p dm with
      | error e1 => simp [hr] at h1
      | ok y =>
        obtain ⟨dr, evr⟩ := y
        simp only [hr, Except.ok.injEq, Prod.mk.injEq] at h1
        obtain ⟨h1a, -⟩ := h1
        subst h1a
        simp [ih bs hr h2]

/-! ## Concrete run fixtures -/

/-! ## The claims -/

/-- C1: for every requested plugin, `merge_plugin` resolves each declared
relative path under the source root in declaration order; a declared path
with no entry under the source root makes the run fail at once with the
`RuntimeError` naming that path, the paths declared after it are never
processed (the result does not depend on them), and the merges already done
for the earlier declared paths are kept (the error carries the destination
exactly as the earlier paths left it). -/
theorem mergePlugin_missing_source_fatal (cfg : Config) (name : String)
    (info : PluginInfo) (pre post : List (List String)) (f : List String)
    (d d1 : Entry) (ev1 : List Event)
    (hname : findPlugin AVAILABLE_PLUGINS name = some info)
    (hdecl : info.files = pre ++ f :: post)
    (hpre : merge_plugin_files cfg pre d = .ok (d1, ev1))
    (hmiss : cfg.thisDir.lookup f = none) :
    merge_plugin cfg name d =
      .error (.runtimeError ("dwa_usd_plugins file " ++
        joinPath cfg.thisDirStr f ++ " does not exist"), d1) := by
  simp only [merge_plugin, hname]
  rw [hdecl]
  exact mpf_append_error cfg pre (f :: post) hpre (mpf_missing cfg hmiss post d1)

/-- Witness for C1: merging the nuke plugin from a source tree that lacks
`cmake` fails with the error naming `/src/cmake`, keeping the already merged
`third_party/nuke`. -/
theorem mergePlugin_missing_source_fatal_witness :
    ∃ d1 ev1,
      merge_plugin_files cfgM [["third_party", "nuke"]] (Entry.dir []) =
        .ok (d1, ev1) ∧
      merge_plugin cfgM "nuke" (Entry.dir []) =
        .error (.runtimeError ("dwa_usd_plugins file " ++
          joinPath cfgM.thisDirStr ["cmake"] ++ " does not exist"), d1) := by
  refine ⟨_, _, rfl, ?_⟩
  exact mergePlugin_missing_source_fatal cfgM "nuke" _
    [["third_party", "nuke"]] [["CMakeLists.txt"], ["build_scripts"]]
    ["cmake"] (Entry.dir []) _ _ rfl rfl rfl rfl

/-- C2: with no merge helper installed, running `merge_plugin` twice in a
row against the same destination leaves the destination tree exactly as
after the first run (overwrite-by-copy is idempotent), for any plugin whose
first run succeeded, over any source tree with distinct child names. -/
theorem mergePlugin_twice_idempotent (cfg : Config) (name : String)
    (d d1 : Entry) (ev1 : List Event)
    (hm : cfg.hasMerge = false)
    (hw : cfg.thisDir.wfNames = true)
    (h1 : merge_plugin cfg name d = .ok (d1, ev1)) :
    ∃ ev2, merge_plugin cfg name d1 = .ok (d1, ev2) := by
  cases hname : findPlugin AVAILABLE_PLUGINS name with
  | none => simp [merge_plugin, hname] at h1
  | some info =>
    simp only [merge_plugin, hname] at h1 ⊢
    exact syncAll_stable cfg hm hw info.files d1
      (run_syncAll cfg hm hw info.files h1)

/-- Witness for C2: merging the nuke plugin into an empty destination twice
keeps the destination of the first run byte for byte. -/
theorem mergePlugin_twice_idempotent_witness :
    ∃ d1 ev1 ev2,
      merge_plugin cfgW "nuke" (Entry.dir []) = .ok (d1, ev1) ∧
      merge_plugin cfgW "nuke" d1 = .ok (d1, ev2) := by
  have h0 : ∃ x, merge_plugin cfgW "nuke" (Entry.dir []) = .ok x := ⟨_, rfl⟩
  obtain ⟨⟨d1, ev1⟩, h1⟩ := h0
  obtain ⟨ev2, h2⟩ :=
    mergePlugin_twice_idempotent cfgW "nuke" (Entry.dir []) d1 ev1 rfl rfl h1
  exact ⟨d1, ev1, ev2, h1, h2⟩

/-- C3: a destination path that does not resolve to a directory, or that
lacks the marker file `pxr/pxr.h.in`, makes `validate_usd_dir` fail, and the
whole run then stops with that error leaving the surrounding filesystem
exactly as it was: no merge is ever reached. -/
theorem validate_failure_blocks_run (cfg : Config) (world : Entry)
    (usdPath : List String) (nuke houdini_hydra : Bool)
    (h : world.lookup (usdPath ++ ["pxr", "pxr.h.in"]) = none ∨
      ∀ cs, world.lookup usdPath ≠ some (.dir cs)) :
    ∃ e, validate_usd_dir world cfg.usdDirStr usdPath = .error e ∧
      run cfg world usdPath nuke houdini_hydra = .error (e, world) := by
  cases hv : world.lookup usdPath with
  | none =>
    refine ⟨.runtimeError (cfg.usdDirStr ++ " is not a valid directory"),
      ?_, ?_⟩
    · simp [validate_usd_dir, hv]
    · simp [run, validate_usd_dir, hv]
  | some v =>
    match v with
    | .file c =>
      refine ⟨.runtimeError (cfg.usdDirStr ++ " is not a valid directory"),
        ?_, ?_⟩
      · simp [validate_usd_dir, hv]
      · simp [run, validate_usd_dir, hv]
    | .other =>
      refine ⟨.runtimeError (cfg.usdDirStr ++ " is not a valid directory"),
        ?_, ?_⟩
      · simp [validate_usd_dir, hv]
      · simp [run, validate_usd_dir, hv]
    | .dir cs =>
      rcases h with hmark | hdir
      · refine ⟨.runtimeError (cfg.usdDirStr ++ " is not a valid USD repo"),
          ?_, ?_⟩
        · simp [validate_usd_dir, hv, hmark]
        · simp [run, validate_usd_dir, hv, hmark]
      · exact absurd hv (hdir cs)

/-- Witness for C3: a destination directory without the marker file is
rejected and the run mutates nothing. -/
theorem validate_failure_blocks_run_witness :
    ∃ e, validate_usd_dir (Entry.dir [("usd", .dir [])]) cfgW.usdDirStr
        ["usd"] = .error e ∧
      run cfgW (Entry.dir [("usd", .dir [])]) ["usd"] true true =
        .error (e, Entry.dir [("usd", .dir [])]) :=
  validate_failure_blocks_run cfgW (Entry.dir [("usd", .dir [])]) ["usd"]
    true true (.inl rfl)

/-- C4: when no merge helper is installed and the destination file exists,
`merge_file` overwrites it entirely with the source bytes, discarding the
prior destination content, and reports exactly one `Copying` line for the
path. -/
theorem mergeFile_overwrite_no_helper (cfg : Config) (p : List String)
    (srcContent old : List Nat) (d : Entry)
    (hm : cfg.hasMerge = false)
    (hf : d.lookup p = some (.file old)) (hp : p ≠ []) :
    ∃ d', merge_file cfg srcContent p d = .ok (d', [.copying p]) ∧
      d'.lookup p = some (.file srcContent) := by
  have hmp : make_parent_dirs d p = .ok d := by
    simp only [make_parent_dirs]
    rw [if_pos (lookup_some_under (by simp [hf]) (under_dropLast hp))]
  rcases copyfile_ok_of_file srcContent hf hp with ⟨d2, hcf⟩
  refine ⟨d2, ?_, copyfile_ok_lookup hcf⟩
  simp only [merge_file]
  rw [if_pos (by rw [hm]; simp)]
  simp [hmp, hcf]

/-- Witness for C4: overwriting an existing one-byte file with new bytes. -/
theorem mergeFile_overwrite_no_helper_witness :
    ∃ d', merge_file cfgW [9] ["a"] (Entry.dir [("a", .file [1, 2])]) =
        .ok (d', [.copying ["a"]]) ∧
      d'.lookup ["a"] = some (.file [9]) :=
  mergeFile_overwrite_no_helper cfgW ["a"] [9] [1, 2]
    (Entry.dir [("a", .file [1, 2])]) rfl rfl (by simp)

/-- C5: for a directory path with no entry yet at the destination (and
filesystem operations succeeding), the merge copies the entire source
subtree as one bulk copy: the resulting destination subtree at the path
equals the source subtree at every relative position (files byte-for-byte,
directories including empty ones), no per-file merge happens inside it, and
exactly one `Copying` line is reported, for the top-level path. -/
theorem mergeDirectory_fresh_copies_subtree (cfg : Config)
    (cs : List (String × Entry)) (p : List String) (d d1 d2 : Entry)
    (hnone : d.lookup p = none)
    (hmp : make_parent_dirs d p = .ok d1)
    (hct : copytree d1 p (.dir cs) = .ok d2) :
    merge_node cfg (.dir cs) p d = .ok (d2, [.copying p]) ∧
      ∀ s, d2.lookup (p ++ s) = (Entry.dir cs).lookup s := by
  refine ⟨?_, copytree_at hct⟩
  simp only [merge_node]
  rw [if_neg (by simp [hnone])]
  simp [hmp, hct]

/-- Witness for C5: copying a subtree with one file and one empty nested
directory to a fresh destination path. -/
theorem mergeDirectory_fresh_copies_subtree_witness :
    ∃ d1 d2,
      make_parent_dirs (Entry.dir []) ["pl", "dirx"] = .ok d1 ∧
      copytree d1 ["pl", "dirx"] (.dir [("x", .file [7]), ("sub", .dir [])]) =
        .ok d2 ∧
      (merge_node cfgW (.dir [("x", .file [7]), ("sub", .dir [])])
          ["pl", "dirx"] (Entry.dir []) = .ok (d2, [.copying ["pl", "dirx"]]) ∧
        ∀ s, d2.lookup (["pl", "dirx"] ++ s) =
          (Entry.dir [("x", .file [7]), ("sub", .dir [])]).lookup s) := by
  refine ⟨_, _, rfl, rfl, ?_⟩
  exact mergeDirectory_fresh_copies_subtree cfgW _ _ _ _ _ rfl rfl rfl

/-- C6: a nonzero exit status of the merge helper on one file is reported
as `Failed merge` for that file but is recoverable: `merge_file` still
returns successfully with the helper's rewrite of that file, and the walk
carries on with the remaining children from that state. -/
theorem mergeFile_helper_failure_recoverable (cfg : Config)
    (p p0 : List String) (n : String) (srcContent old newc : List Nat)
    (code : Nat) (d : Entry) (rest : List (String × Entry))
    (hm : cfg.hasMerge = true)
    (hf : d.lookup p = some (.file old))
    (hh : cfg.helper old old srcContent = (code, newc))
    (hc : code ≠ 0) :
    merge_file cfg srcContent p d =
      .ok (d.setAt p (.file newc),
        [.merging p, .shellCall (mergeCmd cfg p), .failedMerge p]) ∧
    (p = p0 ++ [n] →
      merge_nodes cfg ((n, .file srcContent) :: rest) p0 d =
        match merge_nodes cfg rest p0 (d.setAt p (.file newc)) with
        | .error e => .error e
        | .ok (d2, ev2) => .ok (d2,
            [.merging p, .shellCall (mergeCmd cfg p), .failedMerge p] ++ ev2)) := by
  have h1 : merge_file cfg srcContent p d =
      .ok (d.setAt p (.file newc),
        [.merging p, .shellCall (mergeCmd cfg p), .failedMerge p]) := by
    simp only [merge_file]
    rw [if_neg (by simp [hf, hm])]
    simp [hf, hh, hc]
  refine ⟨h1, ?_⟩
  rintro rfl
  simp only [merge_nodes, merge_node, h1]

/-- Witness for C6: a helper exiting 1 on the only conflicting file leaves
the run successful, with the failure reported and the walk continuing. -/
theorem mergeFile_helper_failure_recoverable_witness :
    merge_file cfgH [5] ["d", "f"] (Entry.dir [("d", .dir [("f", .file [1])])]) =
      .ok ((Entry.dir [("d", .dir [("f", .file [1])])]).setAt ["d", "f"]
          (.file [1, 0]),
        [.merging ["d", "f"], .shellCall (mergeCmd cfgH ["d", "f"]),
          .failedMerge ["d", "f"]]) ∧
    (["d", "f"] = ["d"] ++ ["f"] →
      merge_nodes cfgH [("f", .file [5])] ["d"]
          (Entry.dir [("d", .dir [("f", .file [1])])]) =
        match merge_nodes cfgH [] ["d"]
            ((Entry.dir [("d", .dir [("f", .file [1])])]).setAt ["d", "f"]
              (.file [1, 0])) with
        | .error e => .error e
        | .ok (d2, ev2) => .ok (d2,
            [.merging ["d", "f"], .shellCall (mergeCmd cfgH ["d", "f"]),
              .failedMerge ["d", "f"]] ++ ev2)) :=
  mergeFile_helper_failure_recoverable cfgH ["d", "f"] ["d"] "f" [5] [1]
    [1, 0] 1 (Entry.dir [("d", .dir [("f", .file [1])])]) []
    rfl rfl rfl (by simp)

/-- C7: when the destination file exists and a merge helper is available,
`merge_file` runs the helper through the shell with the command line
`merge <out> <out> <in>` — three path arguments, ours-path and base-path
both the destination file and theirs-path the source file — and installs
the helper's rewrite of the destination file in place. -/
theorem mergeFile_helper_invocation (cfg : Config) (p : List String)
    (srcContent old : List Nat) (d : Entry)
    (hm : cfg.hasMerge = true)
    (hf : d.lookup p = some (.file old)) :
    mergeCmd cfg p = "merge " ++ joinPath cfg.usdDirStr p ++ " " ++
        joinPath cfg.usdDirStr p ++ " " ++ joinPath cfg.thisDirStr p ∧
    merge_file cfg srcContent p d =
      .ok (d.setAt p (.file (cfg.helper old old srcContent).2),
        [.merging p, .shellCall (mergeCmd cfg p)] ++
          (if (cfg.helper old old srcContent).1 == 0 then []
           else [.failedMerge p])) := by
  refine ⟨rfl, ?_⟩
  simp only [merge_file]
  rw [if_neg (by simp [hf, hm])]
  simp [hf]

/-- Witness for C7: the helper of `cfgH` is invoked on an existing
destination file with ours = base = destination content and theirs = source
content. -/
theorem mergeFile_helper_invocation_witness :
    mergeCmd cfgH ["d", "f"] = "merge " ++ joinPath cfgH.usdDirStr ["d", "f"]
        ++ " " ++ joinPath cfgH.usdDirStr ["d", "f"] ++ " " ++
        joinPath cfgH.thisDirStr ["d", "f"] ∧
    merge_file cfgH [5] ["d", "f"]
        (Entry.dir [("d", .dir [("f", .file [1])])]) =
      .ok ((Entry.dir [("d", .dir [("f", .file [1])])]).setAt ["d", "f"]
          (.file (cfgH.helper [1] [1] [5]).2),
        [.merging ["d", "f"], .shellCall (mergeCmd cfgH ["d", "f"])] ++
          (if (cfgH.helper [1] [1] [5]).1 == 0 then []
           else [.failedMerge ["d", "f"]])) :=
  mergeFile_helper_invocation cfgH ["d", "f"] [5] [1]
    (Entry.dir [("d", .dir [("f", .file [1])])]) rfl rfl

/-- C8: while walking a directory whose destination entry already exists,
an immediate child of the source directory that is neither a regular file
nor a directory is fatal: the walk stops right there with the
`RuntimeError` naming the child, keeping only the merges of the children
listed before it. -/
theorem mergeDir_unknown_child_fatal (cfg : Config)
    (cs pre post : List (String × Entry)) (n : String) (p : List String)
    (d d1 : Entry) (ev1 : List Event)
    (hex : (d.lookup p).isSome = true)
    (hcs : cs = pre ++ (n, Entry.other) :: post)
    (hpre : merge_nodes cfg pre p d = .ok (d1, ev1)) :
    merge_node cfg (.dir cs) p d =
      .error (.runtimeError ("Dont know what to do with " ++ n), d1) := by
  simp only [merge_node, if_pos hex]
  rw [hcs]
  refine merge_nodes_append_error cfg pre ((n, Entry.other) :: post) hpre ?_
  simp [merge_nodes, merge_node]

/-- Witness for C8: a device-like child after one good file aborts the walk
with the error naming it, after the good file was merged. -/
theorem mergeDir_unknown_child_fatal_witness :
    ∃ d1 ev1,
      merge_nodes cfgW [("ok1", .file [1])] ["third_party"]
        (Entry.dir [("third_party", .dir [])]) = .ok (d1, ev1) ∧
      merge_node cfgW
          (.dir [("ok1", .file [1]), ("bad", Entry.other), ("tail", .file [2])])
          ["third_party"] (Entry.dir [("third_party", .dir [])]) =
        .error (.runtimeError ("Dont know what to do with " ++ "bad"), d1) := by
  refine ⟨_, _, rfl, ?_⟩
  exact mergeDir_unknown_child_fatal cfgW _ [("ok1", .file [1])]
    [("tail", .file [2])] "bad" ["third_party"]
    (Entry.dir [("third_party", .dir [])]) _ _ rfl rfl rfl

/-- Counterexample for C9: a missing destination path and a destination path
that is a regular file produce the *identical* error, so `validate_usd_dir`
does not distinguish all three rejection cases. -/
theorem validate_reasons_counterexample :
    (Entry.dir []).lookup ["x"] = none ∧
    (Entry.dir [("x", Entry.file [])]).lookup ["x"] = some (.file []) ∧
    validate_usd_dir (Entry.dir []) "u" ["x"] =
      .error (.runtimeError ("u" ++ " is not a valid directory")) ∧
    validate_usd_dir (Entry.dir [("x", Entry.file [])]) "u" ["x"] =
      .error (.runtimeError ("u" ++ " is not a valid directory")) :=
  ⟨rfl, rfl, rfl, rfl⟩

/-- C9 as amended: on every invalid destination path `validate_usd_dir`
raises an error naming the path, with exactly two distinct reason messages:
a path that is missing or not a directory gets "is not a valid directory",
and a directory lacking the marker `pxr/pxr.h.in` gets "is not a valid USD
repo"; the missing and not-a-directory cases share one message. -/
theorem validate_two_reason_messages (world : Entry) (s : String)
    (p : List String) :
    (world.lookup p = none →
      validate_usd_dir world s p =
        .error (.runtimeError (s ++ " is not a valid directory"))) ∧
    (∀ v, world.lookup p = some v → (∀ cs, v ≠ Entry.dir cs) →
      validate_usd_dir world s p =
        .error (.runtimeError (s ++ " is not a valid directory"))) ∧
    (∀ cs, world.lookup p = some (.dir cs) →
      world.lookup (p ++ ["pxr", "pxr.h.in"]) = none →
      validate_usd_dir world s p =
        .error (.runtimeError (s ++ " is not a valid USD repo"))) ∧
    (s ++ " is not a valid directory") ≠ (s ++ " is not a valid USD repo") := by
  refine ⟨?_, ?_, ?_, string_append_ne (by decide)⟩
  · intro h
    simp [validate_usd_dir, h]
  · intro v h hv
    match v with
    | .file c => simp [validate_usd_dir, h]
    | .other => simp [validate_usd_dir, h]
    | .dir cs => exact absurd rfl (hv cs)
  · intro cs h hmark
    simp [validate_usd_dir, h, hmark]

/-- Witness for the amended C9, at a world holding a marker-less directory,
a plain file and nothing else. -/
theorem validate_two_reason_messages_witness :
    ((Entry.dir [("x", Entry.file [])]).lookup ["y"] = none →
      validate_usd_dir (Entry.dir [("x", Entry.file [])]) "u" ["y"] =
        .error (.runtimeError ("u" ++ " is not a valid directory"))) ∧
    (∀ v, (Entry.dir [("x", Entry.file [])]).lookup ["y"] = some v →
      (∀ cs, v ≠ Entry.dir cs) →
      validate_usd_dir (Entry.dir [("x", Entry.file [])]) "u" ["y"] =
        .error (.runtimeError ("u" ++ " is not a valid directory"))) ∧
    (∀ cs, (Entry.dir [("x", Entry.file [])]).lookup ["y"] = some (.dir cs) →
      (Entry.dir [("x", Entry.file [])]).lookup (["y"] ++ ["pxr", "pxr.h.in"]) = none →
      validate_usd_dir (Entry.dir [("x", Entry.file [])]) "u" ["y"] =
        .error (.runtimeError ("u" ++ " is not a valid USD repo"))) ∧
    ("u" ++ " is not a valid directory") ≠ ("u" ++ " is not a valid USD repo") :=
  validate_two_reason_messages (Entry.dir [("x", Entry.file [])]) "u" ["y"]



/-! ## Frame properties of aborted runs -/

theorem mpd_keep_file {d d1 : Entry} {p q : List String} {c0 : List Nat}
    (hmp : make_parent_dirs d p = .ok d1)
    (hq : d.lookup q = some (.file c0)) :
    d1.lookup q = some (.file c0) := by
  rcases make_parent_dirs_elim hmp with ⟨rfl, -⟩ | ⟨hnone, hmk⟩
  · exact hq
  · by_cases hu : under q p.dropLast
    · have hdne : p.dropLast ≠ [] := by
        intro h0
        rw [h0] at hnone
        simp [Entry.lookup] at hnone
      rcases makeDirs_chain_dir hmk hdne q hu _ hq with ⟨cs, hcs⟩
      cases hcs
    · rw [makeDirs_frame hmk q hu]
      exact hq

/-- When a `merge_node` walk aborts with an uncaught exception, the partial
state carried by the error still holds every entry the destination held
before: even an aborted run never deletes or renames anything. -/
theorem merge_node_monoE (cfg : Config) :
    ∀ c p d, MonoEN cfg c p d := by
  refine merge_node.induct cfg (MonoEN cfg) (MonoEL cfg)
    ?_ ?_ ?_ ?_ ?_ ?_ ?_ ?_ ?_ ?_
  · -- a file node: merge_file
    intro p d content er dE h r hs
    simp only [merge_node, merge_file] at h
    split at h
    · split at h
      · rename_i e1 hmp
        simp only [Except.error.injEq, Prod.mk.injEq] at h
        obtain ⟨-, hd⟩ := h
        subst hd
        exact hs
      · rename_i d1 hmp
        split at h
        · rename_i e1 hcf
          simp only [Except.error.injEq, Prod.mk.injEq] at h
          obtain ⟨-, hd⟩ := h
          subst hd
          exact make_parent_dirs_mono hmp r hs
        · exact absurd h (by simp)
    · split at h
      · exact absurd h (by simp)
      · exact absurd h (by simp)
  · -- an `other` node: error carries the unchanged destination
    intro p d er dE h r hs
    simp only [merge_node, Except.error.injEq, Prod.mk.injEq] at h
    obtain ⟨-, hd⟩ := h
    subst hd
    exact hs
  · -- existing destination dir: child walk
    intro p d cs hsome ih er dE h r hs
    simp only [merge_node, if_pos hsome] at h
    exact ih er dE h r hs
  · -- copy branch, make_parent_dirs fails: destination unchanged
    intro p d cs hnone e hmp er dE h r hs
    simp only [merge_node, if_neg hnone, hmp, Except.error.injEq,
      Prod.mk.injEq] at h
    obtain ⟨-, hd⟩ := h
    subst hd
    exact hs
  · -- copy branch, copytree fails: only parent dirs were created
    intro p d cs hnone d2 hmp e hct er dE h r hs
    simp only [merge_node, if_neg hnone, hmp, hct, Except.error.injEq,
      Prod.mk.injEq] at h
    obtain ⟨-, hd⟩ := h
    subst hd
    exact make_parent_dirs_mono hmp r hs
  · -- copy branch succeeds: not an error
    intro p d cs hnone d2 hmp d3 hct er dE h
    simp only [merge_node, if_neg hnone, hmp, hct] at h
    exact absurd h (by simp)
  · -- empty child list: not an error
    intro p d er dE h
    simp only [merge_nodes] at h
    exact absurd h (by simp)
  · -- child fails
    intro p d m e rest e1 hc ih er dE h r hs
    simp only [merge_nodes, hc] at h
    injection h with h2
    subst h2
    exact ih er dE hc r hs
  · -- child ok, remaining children fail
    intro p d m e rest d2 ev2 hc e1 hrest ih1 ih2 er dE h r hs
    simp only [merge_nodes, hc, hrest] at h
    injection h with h2
    subst h2
    exact ih2 er dE hrest r (merge_node_mono cfg e (p ++ [m]) d d2 ev2 hc r hs)
  · -- child and remaining children ok: not an error
    intro p d m e rest d2 ev2 hc d3 ev3 hrest ih1 ih2 er dE h
    simp only [merge_nodes, hc, hrest] at h
    exact absurd h (by simp)

/-- When a `merge_node` walk aborts with an uncaught exception, the partial
state carried by the error keeps the bytes of every destination file whose
relative path has no counterpart in the merged source subtree. -/
theorem merge_node_keepE (cfg : Config) :
    ∀ c p d, KeepEN cfg c p d := by
  refine merge_node.induct cfg (KeepEN cfg) (KeepEL cfg)
    ?_ ?_ ?_ ?_ ?_ ?_ ?_ ?_ ?_ ?_
  · -- a file node: merge_file
    intro p d content er dE h hw q c0 hq hcond
    simp only [merge_node, merge_file] at h
    split at h
    · split at h
      · rename_i e1 hmp
        simp only [Except.error.injEq, Prod.mk.injEq] at h
        obtain ⟨-, hd⟩ := h
        subst hd
        exact hq
      · rename_i d1 hmp
        split at h
        · rename_i e1 hcf
          simp only [Except.error.injEq, Prod.mk.injEq] at h
          obtain ⟨-, hd⟩ := h
          subst hd
          exact mpd_keep_file hmp hq
        · exact absurd h (by simp)
    · split at h
      · exact absurd h (by simp)
      · exact absurd h (by simp)
  · -- an `other` node: error carries the unchanged destination
    intro p d er dE h hw q c0 hq hcond
    simp only [merge_node, Except.error.injEq, Prod.mk.injEq] at h
    obtain ⟨-, hd⟩ := h
    subst hd
    exact hq
  · -- existing destination dir: child walk
    intro p d cs hsome ih er dE h hw q c0 hq hcond
    simp only [merge_node, if_pos hsome] at h
    simp only [Entry.wfNames, Bool.and_eq_true] at hw
    refine ih er dE h hw.2 q c0 hq ?_
    intro nc hmem s hs
    obtain ⟨n1, c1⟩ := nc
    have h0 := hcond (n1 :: s) hs
    simp only [Entry.lookup] at h0
    rw [findChild_of_mem_nodup hw.1 hmem] at h0
    exact h0
  · -- copy branch, make_parent_dirs fails: destination unchanged
    intro p d cs hnone e hmp er dE h hw q c0 hq hcond
    simp only [merge_node, if_neg hnone, hmp, Except.error.injEq,
      Prod.mk.injEq] at h
    obtain ⟨-, hd⟩ := h
    subst hd
    exact hq
  · -- copy branch, copytree fails: only parent dirs were created
    intro p d cs hnone d2 hmp e hct er dE h hw q c0 hq hcond
    simp only [merge_node, if_neg hnone, hmp, hct, Except.error.injEq,
      Prod.mk.injEq] at h
    obtain ⟨-, hd⟩ := h
    subst hd
    exact mpd_keep_file hmp hq
  · -- copy branch succeeds: not an error
    intro p d cs hnone d2 hmp d3 hct er dE h
    simp only [merge_node, if_neg hnone, hmp, hct] at h
    exact absurd h (by simp)
  · -- empty child list: not an error
    intro p d er dE h
    simp only [merge_nodes] at h
    exact absurd h (by simp)
  · -- child fails
    intro p d m e rest e1 hc ih er dE h hw q c0 hq hcond
    simp only [merge_nodes, hc] at h
    injection h with h2
    subst h2
    simp only [wfChildren, Bool.and_eq_true] at hw
    refine ih er dE hc hw.1 q c0 hq ?_
    intro s hs
    exact hcond (m, e) (List.mem_cons_self _ _) s (by
      rw [hs, List.append_assoc]
      rfl)
  · -- child ok, remaining children fail
    intro p d m e rest d2 ev2 hc e1 hrest ih1 ih2 er dE h hw q c0 hq hcond
    simp only [merge_nodes, hc, hrest] at h
    injection h with h2
    subst h2
    simp only [wfChildren, Bool.and_eq_true] at hw
    have hq2 : d2.lookup q = some (.file c0) := by
      refine merge_node_keep cfg e (p ++ [m]) d d2 ev2 hc hw.1 q c0 hq ?_
      intro s hs
      exact hcond (m, e) (List.mem_cons_self _ _) s (by
        rw [hs, List.append_assoc]
        rfl)
    refine ih2 er dE hrest hw.2 q c0 hq2 ?_
    intro nc hmem s hs
    exact hcond nc (List.mem_cons_of_mem _ hmem) s hs
  · -- child and remaining children ok: not an error
    intro p d m e rest d2 ev2 hc d3 ev3 hrest ih1 ih2 er dE h
    simp only [merge_nodes, hc, hrest] at h
    exact absurd h (by simp)

/-- Monotonicity of an aborted plugin run: the partial state carried by the
fatal error still holds every entry the destination held before. -/
theorem mpf_mono_err (cfg : Config) :
    ∀ (files : List (List String)) {d dE : Entry} {er : Err},
      merge_plugin_files cfg files d = .error (er, dE) →
      ∀ r, (d.lookup r).isSome = true → (dE.lookup r).isSome = true := by
  intro files
  induction files with
  | nil =>
    intro d dE er h r hs
    simp only [merge_plugin_files] at h
    exact absurd h (by simp)
  | cons f fs ih =>
    intro d dE er h r hs
    simp only [merge_plugin_files] at h
    cases hl : cfg.thisDir.lookup f with
    | none =>
      simp only [hl, Except.error.injEq, Prod.mk.injEq] at h
      obtain ⟨-, hd⟩ := h
      subst hd
      exact hs
    | some c =>
      simp only [hl] at h
      match c with
      | .other =>
        simp only [Except.error.injEq, Prod.mk.injEq] at h
        obtain ⟨-, hd⟩ := h
        subst hd
        exact hs
      | .file cont =>
        cases hn : merge_node cfg (.file cont) f d with
        | error e1 =>
          obtain ⟨er1, dE1⟩ := e1
          simp only [hn, Except.error.injEq, Prod.mk.injEq] at h
          obtain ⟨-, hb⟩ := h
          subst hb
          exact merge_node_monoE cfg (.file cont) f d er1 dE1 hn r hs
        | ok x =>
          obtain ⟨dm, evm⟩ := x
          simp only [hn] at h
          cases hr : merge_plugin_files cfg fs dm with
          | error e1 =>
            obtain ⟨er1, dE1⟩ := e1
            simp only [hr, Except.error.injEq, Prod.mk.injEq] at h
            obtain ⟨-, hb⟩ := h
            subst hb
            exact ih hr r (merge_node_mono cfg (.file cont) f d dm evm hn r hs)
          | ok y =>
            obtain ⟨dr, evr⟩ := y
            simp only [hr] at h
            exact absurd h (by simp)
      | .dir cs =>
        cases hn : merge_node cfg (.dir cs) f d with
        | error e1 =>
          obtain ⟨er1, dE1⟩ := e1
          simp only [hn, Except.error.injEq, Prod.mk.injEq] at h
          obtain ⟨-, hb⟩ := h
          subst hb
          exact merge_node_monoE cfg (.dir cs) f d er1 dE1 hn r hs
        | ok x =>
          obtain ⟨dm, evm⟩ := x
          simp only [hn] at h
          cases hr : merge_plugin_files cfg fs dm with
          | error e1 =>
            obtain ⟨er1, dE1⟩ := e1
            simp only [hr, Except.error.injEq, Prod.mk.injEq] at h
            obtain ⟨-, hb⟩ := h
            subst hb
            exact ih hr r (merge_node_mono cfg (.dir cs) f d dm evm hn r hs)
          | ok y =>
            obtain ⟨dr, evr⟩ := y
            simp only [hr] at h
            exact absurd h (by simp)

/-- An aborted plugin run keeps the bytes of every destination file whose
relative path has no counterpart under the source root, in the partial state
carried by the fatal error. -/
theorem mpf_keep_err (cfg : Config) (hw : cfg.thisDir.wfNames = true) :
    ∀ (files : List (List String)) {d dE : Entry} {er : Err},
      merge_plugin_files cfg files d = .error (er, dE) →
      ∀ q c0, d.lookup q = some (.file c0) → cfg.thisDir.lookup q = none →
        dE.lookup q = some (.file c0) := by
  intro files
  induction files with
  | nil =>
    intro d dE er h q c0 hq hsrc
    simp only [merge_plugin_files] at h
    exact absurd h (by simp)
  | cons f fs ih =>
    intro d dE er h q c0 hq hsrc
    simp only [merge_plugin_files] at h
    cases hl : cfg.thisDir.lookup f with
    | none =>
      simp only [hl, Except.error.injEq, Prod.mk.injEq] at h
      obtain ⟨-, hd⟩ := h
      subst hd
      exact hq
    | some c =>
      simp only [hl] at h
      have hcond : ∀ s, q = f ++ s → c.lookup s = none := by
        intro s hqs
        have h0 : cfg.thisDir.lookup (f ++ s) = none := hqs ▸ hsrc
        rw [lookup_append, hl] at h0
        simpa using h0
      have hwc : c.wfNames = true := wf_lookup hw hl
      match c with
      | .other =>
        simp only [Except.error.injEq, Prod.mk.injEq] at h
        obtain ⟨-, hd⟩ := h
        subst hd
        exact hq
      | .file cont =>
        cases hn : merge_node cfg (.file cont) f d with
        | error e1 =>
          obtain ⟨er1, dE1⟩ := e1
          simp only [hn, Except.error.injEq, Prod.mk.injEq] at h
          obtain ⟨-, hb⟩ := h
          subst hb
          exact merge_node_keepE cfg (.file cont) f d er1 dE1 hn hwc q c0 hq hcond
        | ok x =>
          obtain ⟨dm, evm⟩ := x
          simp only [hn] at h
          cases hr : merge_plugin_files cfg fs dm with
          | error e1 =>
            obtain ⟨er1, dE1⟩ := e1
            simp only [hr, Except.error.injEq, Prod.mk.injEq] at h
            obtain ⟨-, hb⟩ := h
            subst hb
            exact ih hr q c0
              (merge_node_keep cfg (.file cont) f d dm evm hn hwc q c0 hq hcond)
              hsrc
          | ok y =>
            obtain ⟨dr, evr⟩ := y
            simp only [hr] at h
            exact absurd h (by simp)
      | .dir cs =>
        cases hn : merge_node cfg (.dir cs) f d with
        | error e1 =>
          obtain ⟨er1, dE1⟩ := e1
          simp only [hn, Except.error.injEq, Prod.mk.injEq] at h
          obtain ⟨-, hb⟩ := h
          subst hb
          exact merge_node_keepE cfg (.dir cs) f d er1 dE1 hn hwc q c0 hq hcond
        | ok x =>
          obtain ⟨dm, evm⟩ := x
          simp only [hn] at h
          cases hr : merge_plugin_files cfg fs dm with
          | error e1 =>
            obtain ⟨er1, dE1⟩ := e1
            simp only [hr, Except.error.injEq, Prod.mk.injEq] at h
            obtain ⟨-, hb⟩ := h
            subst hb
            exact ih hr q c0
              (merge_node_keep cfg (.dir cs) f d dm evm hn hwc q c0 hq hcond)
              hsrc
          | ok y =>
            obtain ⟨dr, evr⟩ := y
            simp only [hr] at h
            exact absurd h (by simp)

/-- C10: no operation of the tool ever deletes or renames an existing
destination entry, whatever the outcome of the run: in the destination tree
as `merge_plugin` leaves it — the final tree of a completed run, or the
partial state carried at the moment a fatal error aborts the run — every
entry present beforehand is still present, and every destination file whose
relative path does not exist under the source tree is byte-unchanged. -/
theorem merge_no_deletion_frame (cfg : Config) (name : String)
    (d : Entry) (q : List String)
    (hw : cfg.thisDir.wfNames = true) :
    ((d.lookup q).isSome = true →
      ((runDest (merge_plugin cfg name d)).lookup q).isSome = true) ∧
    (∀ c0, d.lookup q = some (.file c0) → cfg.thisDir.lookup q = none →
      (runDest (merge_plugin cfg name d)).lookup q = some (.file c0)) := by
  cases hname : findPlugin AVAILABLE_PLUGINS name with
  | none =>
    constructor
    · intro hs
      simpa [merge_plugin, hname, runDest] using hs
    · intro c0 hq hsrc
      simpa [merge_plugin, hname, runDest] using hq
  | some info =>
    cases hres : merge_plugin_files cfg info.files d with
    | ok x =>
      obtain ⟨d1, ev⟩ := x
      constructor
      · intro hs
        have h1 := mpf_mono cfg info.files hres q hs
        simpa [merge_plugin, hname, hres, runDest] using h1
      · intro c0 hq hsrc
        have h1 := mpf_keep cfg hw info.files hres q c0 hq hsrc
        simpa [merge_plugin, hname, hres, runDest] using h1
    | error e =>
      obtain ⟨er, dE⟩ := e
      constructor
      · intro hs
        have h1 := mpf_mono_err cfg info.files hres q hs
        simpa [merge_plugin, hname, hres, runDest] using h1
      · intro c0 hq hsrc
        have h1 := mpf_keep_err cfg hw info.files hres q c0 hq hsrc
        simpa [merge_plugin, hname, hres, runDest] using h1

/-- Witness for C10, at a run that aborts partway: merging the nuke plugin
from the `cfgM` source tree (which is missing its declared `cmake` path)
into a destination holding only `keep.txt` copies `third_party` and then
raises the fatal missing-path error; the partial state carried by that error
still holds `keep.txt` with its original bytes. -/
theorem merge_no_deletion_frame_witness :
    (∃ er dE, merge_plugin cfgM "nuke"
        (Entry.dir [("keep.txt", Entry.file [42])]) = .error (er, dE)) ∧
    (((Entry.dir [("keep.txt", Entry.file [42])]).lookup
        ["keep.txt"]).isSome = true →
      ((runDest (merge_plugin cfgM "nuke"
        (Entry.dir [("keep.txt", Entry.file [42])]))).lookup
        ["keep.txt"]).isSome = true) ∧
    (∀ c0, (Entry.dir [("keep.txt", Entry.file [42])]).lookup ["keep.txt"]
        = some (.file c0) →
      cfgM.thisDir.lookup ["keep.txt"] = none →
      (runDest (merge_plugin cfgM "nuke"
        (Entry.dir [("keep.txt", Entry.file [42])]))).lookup ["keep.txt"]
        = some (.file c0)) :=
  ⟨⟨_, _, rfl⟩,
   merge_no_deletion_frame cfgM "nuke"
     (Entry.dir [("keep.txt", Entry.file [42])]) ["keep.txt"] rfl⟩
